import Mathlib

/-!
# Circle rasterisation (`circle.go`): a shallow embedding and its properties

The Go program draws a circle outline of integer radius with an integer-only
midpoint method (`drawCircleInt`), compares it in its tests against a
square-root method (`drawCircleSqrt`), and renders the points as text
(`drawCircleText`).

Conventions of the embedding:

* In `drawCircleInt`, `drawCircleSqrt` and `drawCircleText` the Go `int`
  values are mathematical integers (`Int`) and the arithmetic is exact: they
  describe the program run with unbounded integers, and a Go run-time panic
  (index out of range, negative repeat count) is `none`.
* In `drawCircleInt64`, `drawCircleText64`, `drawCircleImage` and
  `httpHandler` every arithmetic operation of the source is reduced to the
  signed 64-bit range (`wrap64`), as Go does; the loops run for at most a
  given number of iterations (the fuel), and the result is an `Option` or an
  `Outcome` that tells a return from a panic and from a loop still running.
  What the Go runtime and the standard library decide (whether a buffer is
  allocated, what `strconv.Atoi` and `png.Encode` return) is a parameter.
* The two readings are compared wherever a property of the program depends on
  the integer width.
* A call `drawCircleInt(r, putPixel)` is represented by the list of the
  arguments of the successive `putPixel` calls, in call order.
-/

namespace Circle

/-! ## The point generator -/

/-- The mutable local variables of `drawCircleInt` that live across loop
iterations: `x`, `y`, `xsq`, `ysq`.  (`rsq` never changes and is passed
separately.) -/
structure LoopState where
  x : Int
  y : Int
  xsq : Int
  ysq : Int
  deriving DecidableEq, Repr

/-- The eight `putPixel` calls made at the top of the loop body of
`drawCircleInt` (and of `drawCircleSqrt`), in source order. -/
def putPixels (x y : Int) : List (Int × Int) :=
  [(x, y), (y, x), (-x, y), (-y, x), (x, -y), (y, -x), (-x, -y), (-y, -x)]

/-- The part of the loop body of `drawCircleInt` after the `putPixel` calls:
advance `x`, update `xsq`, and keep or decrement `y`.  The arithmetic is exact
(unbounded integers); `body64` is the same body with Go's 64-bit wraparound,
and the two agree on the states of a run of radius below `2^61`
(`body64_wrapState`). -/
def body (rsq : Int) (s : LoopState) : LoopState :=
  let xsq := s.xsq + 2 * s.x + 1
  let x := s.x + 1
  let y1sq := s.ysq - 2 * s.y + 1
  let a := xsq + s.ysq
  let b := xsq + y1sq
  if a - rsq ≥ rsq - b then
    { x := x, y := s.y - 1, xsq := xsq, ysq := y1sq }
  else
    { x := x, y := s.y, xsq := xsq, ysq := s.ysq }

/-- The loop `for x <= y { ... }` of `drawCircleInt`, started in state `s`:
the sequence of `putPixel` calls it makes. -/
def drawCircleIntLoop (rsq : Int) (s : LoopState) : List (Int × Int) :=
  if s.x ≤ s.y then
    putPixels s.x s.y ++ drawCircleIntLoop rsq (body rsq s)
  else
    []
termination_by (s.y - s.x + 1).toNat
decreasing_by
  have h1 : (body rsq s).x = s.x + 1 := by
    unfold body; dsimp only; split <;> rfl
  have h2 : (body rsq s).y ≤ s.y := by
    unfold body; dsimp only; split <;> simp
  omega

/-- The values of the local variables of `drawCircleInt` when the loop is
first reached. -/
def initState (r : Int) : LoopState :=
  { x := 0, y := r, xsq := 0, ysq := r * r }

/-- The sequence of `putPixel` calls made by `drawCircleInt(r, putPixel)` run
with unbounded integers.  The run with Go's 64-bit integers is
`drawCircleInt64`; it makes the same calls for `0 ≤ r < 2^61` (`run64_eq`) and
other calls at `r = 2^62 + 1` (`mem_emitted64_big`). -/
def drawCircleInt (r : Int) : List (Int × Int) :=
  drawCircleIntLoop (r * r) (initState r)

/-- The loop states at which the loop body of `drawCircleInt` is executed
(the states at which the loop condition `x <= y` was found true), in order. -/
def loopStates (rsq : Int) (s : LoopState) : List LoopState :=
  if s.x ≤ s.y then
    s :: loopStates rsq (body rsq s)
  else
    []
termination_by (s.y - s.x + 1).toNat
decreasing_by
  have h1 : (body rsq s).x = s.x + 1 := by
    unfold body; dsimp only; split <;> rfl
  have h2 : (body rsq s).y ≤ s.y := by
    unfold body; dsimp only; split <;> simp
  omega

/-- The first-octant points `(x, y)` visited by the loop of
`drawCircleInt(r, _)`: the values of `x` and `y` at each execution of the
eight `putPixel` calls, in order. -/
def visitedPoints (r : Int) : List (Int × Int) :=
  (loopStates (r * r) (initState r)).map (fun s => (s.x, s.y))

/-- The quantity `a - rsq` that the loop body of `drawCircleInt` compares: the
signed squared-distance error of the candidate that keeps `y`, at the advanced
`x`. -/
def aMinusRsq (rsq : Int) (s : LoopState) : Int :=
  let xsq := s.xsq + 2 * s.x + 1
  let a := xsq + s.ysq
  a - rsq

/-- The quantity `rsq - b` that the loop body of `drawCircleInt` compares: the
negated squared-distance error of the candidate `y - 1`, at the advanced
`x`. -/
def rsqMinusB (rsq : Int) (s : LoopState) : Int :=
  let xsq := s.xsq + 2 * s.x + 1
  let y1sq := s.ysq - 2 * s.y + 1
  let b := xsq + y1sq
  rsq - b

/-- The value `round(sqrt(n))` for an integer `n`, computed exactly: with
`s = ⌊sqrt n⌋`, the result is `s` when `n ≤ s² + s` (that is, when
`sqrt n < s + 1/2`) and `s + 1` otherwise.  `sqrt n` is never exactly half way
between two integers (`abs_sqrt_sub_roundSqrt_lt`), so the rounding direction
at a tie is immaterial.  It stands for `int(math.Round(math.Sqrt(float64(n))))` evaluated without
floating-point error.  (`Int.toNat` sends a negative `n` to `0`; the callers
below only pass `n ≥ 0`.) -/
def roundSqrt (n : Int) : Int :=
  let s := Nat.sqrt n.toNat
  if n.toNat ≤ s * s + s then (s : Int) else (s : Int) + 1

/-- The loop `for x := 0; x <= y; x++ { ... }` of `drawCircleSqrt`, started
with the counter at `x`.  The `y` of the loop condition is the outer variable,
which keeps its initial value `r` throughout: the `y :=` inside the body
declares a new variable, used for the eight `putPixel` calls only. -/
def drawCircleSqrtLoop (y rsq : Int) (x : Int) : List (Int × Int) :=
  if x ≤ y then
    let y' := roundSqrt (rsq - x * x)
    putPixels x y' ++ drawCircleSqrtLoop y rsq (x + 1)
  else
    []
termination_by (y - x + 1).toNat
decreasing_by omega

/-- The sequence of `putPixel` calls made by `drawCircleSqrt(r, putPixel)`
with the square root and the rounding computed exactly. -/
def drawCircleSqrt (r : Int) : List (Int × Int) :=
  drawCircleSqrtLoop r (r * r) 0

/-! ## The text renderer -/

/-- The indexed store `buf[i] = c` of Go on a byte slice: it panics (`none`)
when `i` is not a valid index. -/
def store (buf : List Char) (i : Int) (c : Char) : Option (List Char) :=
  if 0 ≤ i ∧ i < buf.length then some (buf.set i.toNat c) else none

/-- The loop `for i := size; i < len(buf); i += size + 1 { buf[i] = '\n' }`
of `drawCircleText`, for `size ≥ 0`, started at index `i`.  The store cannot
panic here: `0 ≤ i < len(buf)`. -/
def newlineLoop (size : Nat) (i : Nat) (buf : List Char) : List Char :=
  if i < buf.length then
    newlineLoop size (i + (size + 1)) (buf.set i '\n')
  else
    buf
termination_by buf.length - i
decreasing_by
  simp only [List.length_set]
  omega

/-- The index `(size+1)*(r-y)+x+r` at which the callback of `drawCircleText`
stores `'#'` for the point `(x, y)`, with `size = r*2 + 1`. -/
def pixelIndex (r x y : Int) : Int :=
  (r * 2 + 1 + 1) * (r - y) + x + r

/-- The bytes that `drawCircleText(r, writer)` passes to `writer.Write`, or
`none` when the function panics.  All bytes are ASCII and are represented as
characters.

The callback passed to `drawCircleInt` stores `'#'` at `pixelIndex` for each
emitted point, so the stores happen in emission order and the first store out
of range aborts the function.

For `size = r*2 + 1 < 0` the function always panics: `bytes.Repeat` panics on
a negative count, and when the count `(size+1)*size` is not negative the
buffer has non-negative length, so the newline loop is entered with
`i = size < 0` and its first store is out of range.

The integers are unbounded here.  The function with Go's 64-bit integers is
`drawCircleText64`; it returns the same bytes for `0 ≤ r ≤ 1518500248` when
the buffer is allocated (`drawCircleText64_eq`), and panics where this one
does not at `r = 2000000000` and at `r = 2^31`. -/
def drawCircleText (r : Int) : Option (List Char) :=
  let size := r * 2 + 1
  if size < 0 then
    none
  else
    let buf := List.replicate ((size + 1) * size).toNat ' '
    let buf := newlineLoop size.toNat size.toNat buf
    (drawCircleInt r).foldlM (fun buf p => store buf (pixelIndex r p.1 p.2) '#') buf

/-! ## Further definitions for the point generator -/

/-- The local variable `y1sq` of the loop body of `drawCircleInt`: the
candidate new value of `ysq`, `ysq - 2*y + 1`. -/
def y1sq (s : LoopState) : Int :=
  s.ysq - 2 * s.y + 1

/-- The rule stated for the decrement decision, in the words of the comment
`Choose y or y-1, whichever gives smallest error`: with `x` already advanced,
`a = x² + y²` and `b = x² + (y-1)²`, keep `y` when `|a - r²| < |b - r²|` and
take `y - 1` when `|b - r²| ≤ |a - r²|`.  This is the stated rule, not the
code; the code is `body`. -/
def nearestCandidate (r x y : Int) : Int :=
  if |x * x + y * y - r * r| < |x * x + (y - 1) * (y - 1) - r * r| then y else y - 1

/-- The value of a signed 64-bit Go `int` holding the integer `v` after
wraparound: the representative of `v` modulo `2^64` in `[-2^63, 2^63)`.
(`9223372036854775808 = 2^63`, `18446744073709551616 = 2^64`.) -/
def wrap64 (v : Int) : Int :=
  (v + 9223372036854775808) % 18446744073709551616 - 9223372036854775808

/-- The integer `v` is in the range of a signed 64-bit `int`. -/
def inInt64 (v : Int) : Prop :=
  -9223372036854775808 ≤ v ∧ v < 9223372036854775808

/-- The eight `putPixel` calls of the loop body, the negations computed with
wraparound. -/
def putPixels64 (x y : Int) : List (Int × Int) :=
  [(x, y), (y, x), (wrap64 (-x), y), (wrap64 (-y), x), (x, wrap64 (-y)), (y, wrap64 (-x)),
    (wrap64 (-x), wrap64 (-y)), (wrap64 (-y), wrap64 (-x))]

/-- The loop body of `drawCircleInt` after the `putPixel` calls, with every
arithmetic operation of the source wrapped to 64 bits, in the order in which
Go evaluates it (`xsq + 2*x + 1` is `(xsq + 2*x) + 1`, and so on). -/
def body64 (rsq : Int) (s : LoopState) : LoopState :=
  let xsq := wrap64 (wrap64 (s.xsq + wrap64 (2 * s.x)) + 1)
  let x := wrap64 (s.x + 1)
  let y1sq := wrap64 (wrap64 (s.ysq - wrap64 (2 * s.y)) + 1)
  let a := wrap64 (xsq + s.ysq)
  let b := wrap64 (xsq + y1sq)
  if wrap64 (a - rsq) ≥ wrap64 (rsq - b) then
    { x := x, y := wrap64 (s.y - 1), xsq := xsq, ysq := y1sq }
  else
    { x := x, y := s.y, xsq := xsq, ysq := s.ysq }

/-- The loop of `drawCircleInt` with 64-bit wraparound arithmetic, run for at
most `fuel` iterations: `none` when the loop condition still holds after
`fuel` iterations. -/
def drawCircleInt64Loop (rsq : Int) : Nat → LoopState → Option (List (Int × Int))
  | 0, s => if s.x ≤ s.y then none else some []
  | fuel + 1, s =>
    if s.x ≤ s.y then
      (drawCircleInt64Loop rsq fuel (body64 rsq s)).map (fun l => putPixels64 s.x s.y ++ l)
    else
      some []

/-- The sequence of `putPixel` calls of `drawCircleInt(r, putPixel)` run with
64-bit wraparound arithmetic, for at most `fuel` loop iterations. -/
def drawCircleInt64 (fuel : Nat) (r : Int) : Option (List (Int × Int)) :=
  drawCircleInt64Loop (wrap64 (r * r)) fuel
    { x := 0, y := r, xsq := 0, ysq := wrap64 (r * r) }

/-- The values computed by one execution of the loop body of `drawCircleInt`
in state `s`, with unbounded integers: the variables read, every
subexpression of the assignments and of the comparison, and the negated
arguments of the `putPixel` calls. -/
def intermediates (rsq : Int) (s : LoopState) : List Int :=
  let xsq := s.xsq + 2 * s.x + 1
  let y1sq := s.ysq - 2 * s.y + 1
  let a := xsq + s.ysq
  let b := xsq + y1sq
  [rsq, s.x, s.y, s.xsq, s.ysq, -s.x, -s.y, 2 * s.x, 2 * s.x + 1, s.xsq + 2 * s.x, xsq,
    s.x + 1, 2 * s.y, s.ysq - 2 * s.y, y1sq, a, b, a - rsq, rsq - b, s.y - 1]

/-! ## The 64-bit run: visited states and emitted points -/

/-- The values of the local variables of `drawCircleInt` when the loop is
first reached, in the 64-bit run: `rsq := r * r` wraps, and `ysq := rsq`. -/
def initState64 (r : Int) : LoopState :=
  { x := 0, y := r, xsq := 0, ysq := wrap64 (r * r) }

/-- The loop states at which the body of the 64-bit run is executed during
its first `fuel` iterations, in order. -/
def loopStates64 (rsq : Int) : Nat → LoopState → List LoopState
  | 0, _ => []
  | fuel + 1, s =>
    if s.x ≤ s.y then
      s :: loopStates64 rsq fuel (body64 rsq s)
    else
      []

/-- The first-octant points `(x, y)` visited by the 64-bit run of
`drawCircleInt(r, _)` during its first `fuel` iterations. -/
def visitedPoints64 (fuel : Nat) (r : Int) : List (Int × Int) :=
  (loopStates64 (wrap64 (r * r)) fuel (initState64 r)).map (fun s => (s.x, s.y))

/-- The `putPixel` calls made by the 64-bit run of `drawCircleInt(r, _)`
during its first `fuel` iterations. -/
def emitted64 (fuel : Nat) (r : Int) : List (Int × Int) :=
  (loopStates64 (wrap64 (r * r)) fuel (initState64 r)).flatMap
    (fun s => putPixels64 s.x s.y)

/-- The state of the 64-bit run that corresponds to the state `s` of the run
with unbounded integers: the same `x` and `y`, and the squares reduced to 64
bits. -/
def wrapState (s : LoopState) : LoopState :=
  { x := s.x, y := s.y, xsq := wrap64 s.xsq, ysq := wrap64 s.ysq }

/-! ## The text renderer with 64-bit wraparound arithmetic -/

/-- The result of running a function of the program within a bound on the
number of loop iterations: it returned, it panicked, or a loop was still
running when the fuel was used up. -/
inductive Outcome (α : Type) where
  | ok (a : α)
  | panic
  | outOfFuel
  deriving DecidableEq, Repr

/-- A step that panics where the unbounded model has `none`. -/
def Outcome.ofOption {α : Type} : Option α → Outcome α
  | some a => Outcome.ok a
  | none => Outcome.panic

/-- The index `(size+1)*(r-y)+x+r` computed by the callback of
`drawCircleText` with 64-bit wraparound, `size = r*2 + 1`, in Go's order of
evaluation. -/
def pixelIndex64 (r x y : Int) : Int :=
  let size := wrap64 (wrap64 (r * 2) + 1)
  wrap64 (wrap64 (wrap64 (wrap64 (size + 1) * wrap64 (r - y)) + x) + r)

/-- The loop `for i := size; i < len(buf); i += size + 1 { buf[i] = '\n' }`
of `drawCircleText` with 64-bit wraparound, started at index `i`, for at most
`fuel` iterations.  The store panics when `i` is negative. -/
def newlineLoop64 (size : Int) : Nat → Int → List Char → Outcome (List Char)
  | 0, i, buf => if i < (buf.length : Int) then Outcome.outOfFuel else Outcome.ok buf
  | fuel + 1, i, buf =>
    if i < (buf.length : Int) then
      match store buf i '\n' with
      | none => Outcome.panic
      | some buf' => newlineLoop64 size fuel (wrap64 (i + wrap64 (size + 1))) buf'
    else
      Outcome.ok buf

/-- The loop of `drawCircleInt` as `drawCircleText` runs it, with 64-bit
wraparound and for at most `fuel` iterations: the eight `putPixel` calls of
each iteration store `'#'` into the buffer, and the first store out of range
panics. -/
def textLoop64 (r rsq : Int) : Nat → LoopState → List Char → Outcome (List Char)
  | 0, s, buf => if s.x ≤ s.y then Outcome.outOfFuel else Outcome.ok buf
  | fuel + 1, s, buf =>
    if s.x ≤ s.y then
      match (putPixels64 s.x s.y).foldlM
          (fun b p => store b (pixelIndex64 r p.1 p.2) '#') buf with
      | none => Outcome.panic
      | some buf' => textLoop64 r rsq fuel (body64 rsq s) buf'
    else
      Outcome.ok buf

/-- The function `drawCircleText(r, writer)` with 64-bit wraparound, each of
its loops run for at most `fuel` iterations: `ok buf` when it passes `buf` to
`writer.Write`.  `bytes.Repeat` panics when the count `(size+1)*size`, as
computed, is negative; otherwise it asks the Go runtime for a buffer of that
many bytes.  `canAlloc n` tells whether the runtime provides a buffer of `n`
bytes; when it does not, the program stops there (`makeslice: len out of
range`, or out of memory), which is `panic` here. -/
def drawCircleText64 (canAlloc : Int → Bool) (fuel : Nat) (r : Int) : Outcome (List Char) :=
  let size := wrap64 (wrap64 (r * 2) + 1)
  let count := wrap64 (wrap64 (size + 1) * size)
  if count < 0 then
    Outcome.panic
  else if canAlloc count = false then
    Outcome.panic
  else
    match newlineLoop64 size fuel size (List.replicate count.toNat ' ') with
    | Outcome.ok buf => textLoop64 r (wrap64 (r * r)) fuel (initState64 r) buf
    | Outcome.panic => Outcome.panic
    | Outcome.outOfFuel => Outcome.outOfFuel

/-! ## The HTTP handler -/

/-- The constant `defaultRadius`. -/
def defaultRadius : Int := 3

/-- The function `strconv.Atoi` of the Go standard library, from its
documentation: an optional sign `+` or `-` followed by one or more decimal
digits; `none` stands for a returned error (a syntax error, or a value
outside the range of a 64-bit `int`). -/
def goAtoi (s : String) : Option Int :=
  let cs := s.toList
  let neg := cs.head? = some '-'
  let ds := if cs.head? = some '-' ∨ cs.head? = some '+' then cs.tail else cs
  if ds = [] ∨ ¬ ds.all Char.isDigit then
    none
  else
    let v : Int := ds.foldl (fun acc c => 10 * acc + ((c.toNat : Int) - 48)) 0
    let n := if neg then -v else v
    if -9223372036854775808 ≤ n ∧ n ≤ 9223372036854775807 then some n else none

/-- The helper `mul3NonNeg` of the Go package `image`, from its source: the
product `x * y * z`, or `-1` when an argument is negative, when `x * y` or the
full product does not fit in an unsigned 64-bit word, or when the product does
not fit in an `int`. -/
def mul3NonNeg (x y z : Int) : Int :=
  if x < 0 ∨ y < 0 ∨ z < 0 then -1
  else if 18446744073709551616 ≤ x * y then -1
  else if 18446744073709551616 ≤ x * y * z then -1
  else if 9223372036854775808 ≤ x * y * z then -1
  else x * y * z

/-- An `*image.NRGBA` as `drawCircleImage` builds it: the bounds
`image.Rect(0, 0, size, size)` (which swaps the coordinates when `size < 0`,
so both `Min` coordinates are `lo` and both `Max` coordinates are `hi`), and
the pixels set to opaque white, in the order of the `SetNRGBA` calls.  All
other pixels keep the zero value (transparent). -/
structure Image where
  lo : Int
  hi : Int
  white : List (Int × Int)
  deriving DecidableEq, Repr

/-- The image that `drawCircleImage(r, writer)` passes to `png.Encode`, with
64-bit wraparound and at most `fuel` loop iterations.  `image.NewNRGBA` panics
when `mul3NonNeg(4, Dx, Dy)` is negative (a rectangle with huge or negative
dimensions); otherwise it asks the Go runtime for a pixel buffer of that many
bytes, and `canAlloc n` tells whether the runtime provides `n` bytes (when it
does not, the program stops there, which is `panic` here).  For each emitted
point `(x, y)` the callback calls `im.SetNRGBA(x+r, r-y, white)`, which sets
the pixel when it lies inside the bounds and does nothing otherwise. -/
def drawCircleImage (canAlloc : Int → Bool) (fuel : Nat) (r : Int) : Outcome Image :=
  let size := wrap64 (wrap64 (r * 2) + 1)
  let lo := min 0 size
  let hi := max 0 size
  let d := wrap64 (hi - lo)
  let total := mul3NonNeg 4 d d
  if total < 0 then
    Outcome.panic
  else if canAlloc total = false then
    Outcome.panic
  else
    match drawCircleInt64 fuel r with
    | none => Outcome.outOfFuel
    | some pts =>
      Outcome.ok
        { lo := lo
          hi := hi
          white := (pts.map (fun p => (wrap64 (p.1 + r), wrap64 (r - p.2)))).filter
            (fun q => decide (lo ≤ q.1 ∧ q.1 < hi ∧ lo ≤ q.2 ∧ q.2 < hi)) }

/-- A call made by `httpHandler` on its `http.ResponseWriter`:
`w.WriteHeader(status)`, `fmt.Fprintf(w, text)`, or `png.Encode(w, im)`
(inside `drawCircleImage`). -/
inductive WriterCall where
  | writeHeader (status : Nat)
  | writeText (text : String)
  | pngEncode (im : Image)
  deriving DecidableEq, Repr

/-- The calls of `httpHandler` once the image `im` is built:
`drawCircleImage` encodes it, and when `png.Encode` returns an error `e` the
handler writes `"error encoding image: " + e`.  `encodeError im` is the error
returned by `png.Encode` for `im`, if any; the encoder is outside the
program. -/
def renderCalls (encodeError : Image → Option String) (im : Image) : List WriterCall :=
  match encodeError im with
  | none => [WriterCall.pngEncode im]
  | some e => [WriterCall.pngEncode im, WriterCall.writeText ("error encoding image: " ++ e)]

/-- The calls of `httpHandler` in the branch that rejects the request. -/
def badRequestCalls : List WriterCall :=
  [WriterCall.writeHeader 400,
    WriterCall.writeText "radius must be a positive integer, e.g., ?r=42"]

/-- The part of `httpHandler` after the radius is settled: build the image
and encode it.  A panic of `image.NewNRGBA` leaves the handler before any call
on the writer. -/
def renderRadius (encodeError : Image → Option String) (canAlloc : Int → Bool) (fuel : Nat)
    (radius : Int) : Outcome (List WriterCall) :=
  match drawCircleImage canAlloc fuel radius with
  | Outcome.ok im => Outcome.ok (renderCalls encodeError im)
  | Outcome.panic => Outcome.panic
  | Outcome.outOfFuel => Outcome.outOfFuel

/-- The sequence of calls that `httpHandler(w, r)` makes on `w`, or its panic,
where `radiusStr` is the value of `r.FormValue("r")` (the empty string when
the parameter is absent) and `atoi s` is the result of `strconv.Atoi(s)`:
`none` when it returns an error, the parsed integer otherwise.  The
`log.Printf` call is not part of the response and is left out. -/
def httpHandler (atoi : String → Option Int) (encodeError : Image → Option String)
    (canAlloc : Int → Bool) (fuel : Nat) (radiusStr : String) : Outcome (List WriterCall) :=
  if radiusStr ≠ "" then
    match atoi radiusStr with
    | none => Outcome.ok badRequestCalls
    | some radius =>
      if radius < 0 then Outcome.ok badRequestCalls
      else renderRadius encodeError canAlloc fuel radius
  else
    renderRadius encodeError canAlloc fuel defaultRadius

/-! ## The loop invariant -/

/-- The relation between the loop variables of `drawCircleInt(r, _)` that
holds each time the loop condition is evaluated: the squares are up to date,
`y` is at least the rounded square root for column `x`, and it is exactly that
value whenever the loop condition holds. -/
structure Tracks (r : Int) (s : LoopState) : Prop where
  x_nonneg : 0 ≤ s.x
  xsq_eq : s.xsq = s.x * s.x
  ysq_eq : s.ysq = s.y * s.y
  y_le : s.y ≤ r
  gap : s.x ≤ s.y + 2
  start : s.x = 0 → 0 ≤ s.y
  upper : r * r - s.x * s.x ≤ s.y * s.y + s.y
  lower : s.x ≤ s.y → s.y = 0 ∨ s.y * s.y - s.y < r * r - s.x * s.x

/-! ## Basic facts about the loop -/

theorem body_x (rsq : Int) (s : LoopState) : (body rsq s).x = s.x + 1 := by
  unfold body; dsimp only; split <;> rfl

theorem body_y_le (rsq : Int) (s : LoopState) : (body rsq s).y ≤ s.y := by
  unfold body; dsimp only; split <;> simp

theorem loopStates_of_le (rsq : Int) (s : LoopState) (h : s.x ≤ s.y) :
    loopStates rsq s = s :: loopStates rsq (body rsq s) := by
  rw [loopStates, if_pos h]

theorem loopStates_of_not_le (rsq : Int) (s : LoopState) (h : ¬ s.x ≤ s.y) :
    loopStates rsq s = [] := by
  rw [loopStates, if_neg h]

theorem drawCircleIntLoop_of_le (rsq : Int) (s : LoopState) (h : s.x ≤ s.y) :
    drawCircleIntLoop rsq s = putPixels s.x s.y ++ drawCircleIntLoop rsq (body rsq s) := by
  rw [drawCircleIntLoop, if_pos h]

theorem drawCircleIntLoop_of_not_le (rsq : Int) (s : LoopState) (h : ¬ s.x ≤ s.y) :
    drawCircleIntLoop rsq s = [] := by
  rw [drawCircleIntLoop, if_neg h]

/-- The emitted sequence is the concatenation, over the states at which the
loop body runs, of the eight calls made there. -/
theorem drawCircleIntLoop_eq_flatMap (rsq : Int) (s : LoopState) :
    drawCircleIntLoop rsq s = (loopStates rsq s).flatMap (fun t => putPixels t.x t.y) := by
  induction s using loopStates.induct rsq with
  | case1 s h ih =>
    rw [drawCircleIntLoop_of_le rsq s h, loopStates_of_le rsq s h, List.flatMap_cons, ih]
  | case2 s h =>
    rw [drawCircleIntLoop_of_not_le rsq s h, loopStates_of_not_le rsq s h]
    rfl

theorem mem_drawCircleInt (r : Int) (p : Int × Int) :
    p ∈ drawCircleInt r ↔
      ∃ s ∈ loopStates (r * r) (initState r), p ∈ putPixels s.x s.y := by
  unfold drawCircleInt
  rw [drawCircleIntLoop_eq_flatMap, List.mem_flatMap]

/-- A point is among the eight calls for `(x, y)` exactly when its coordinates
are, up to sign, `x` and `y` in either order. -/
theorem mem_putPixels (x y : Int) (p : Int × Int) :
    p ∈ putPixels x y ↔
      ((p.1 = x ∨ p.1 = -x) ∧ (p.2 = y ∨ p.2 = -y)) ∨
      ((p.1 = y ∨ p.1 = -y) ∧ (p.2 = x ∨ p.2 = -x)) := by
  obtain ⟨a, b⟩ := p
  simp only [putPixels, List.mem_cons, Prod.mk.injEq, List.mem_singleton, List.mem_nil_iff,
    or_false]
  tauto

theorem mem_putPixels_swap (x y : Int) (p : Int × Int) :
    p ∈ putPixels x y ↔ p ∈ putPixels y x := by
  rw [mem_putPixels, mem_putPixels]
  tauto

/-! ## The invariant is established and preserved -/

theorem tracks_initState (r : Int) (hr : 0 ≤ r) : Tracks r (initState r) := by
  refine ⟨le_refl _, ?_, rfl, le_refl _, ?_, fun _ => hr, ?_, ?_⟩
  · simp [initState]
  · simp only [initState]; omega
  · simp only [initState]; omega
  · intro _
    simp only [initState]
    omega

theorem tracks_body (r : Int) (s : LoopState) (h : Tracks r s) (hc : s.x ≤ s.y) :
    Tracks r (body (r * r) s) := by
  obtain ⟨h0, hx, hy, hyr, hgap, hst, hup, hlo⟩ := h
  have hlo := hlo hc
  have e1 : (s.x + 1) * (s.x + 1) = s.x * s.x + 2 * s.x + 1 := by ring
  have e2 : (s.y - 1) * (s.y - 1) = s.y * s.y - 2 * s.y + 1 := by ring
  unfold body
  dsimp only
  rw [hx, hy]
  split
  · refine ⟨?_, ?_, ?_, ?_, ?_, ?_, ?_, ?_⟩ <;> dsimp only <;> (try rw [e1]) <;> (try rw [e2]) <;> omega
  · refine ⟨?_, ?_, ?_, ?_, ?_, ?_, ?_, ?_⟩ <;> dsimp only <;> (try rw [e1]) <;> omega

/-! ## Exact rounding of the square root -/

theorem roundSqrt_nonneg (n : Int) : 0 ≤ roundSqrt n := by
  unfold roundSqrt
  dsimp only
  split <;> omega

/-- `roundSqrt n` is the least `k ≥ 0` with `n ≤ k² + k`. -/
theorem roundSqrt_le_iff (n k : Int) (hk : 0 ≤ k) : roundSqrt n ≤ k ↔ n ≤ k * k + k := by
  lift k to ℕ using hk
  have h1 : Nat.sqrt n.toNat * Nat.sqrt n.toNat ≤ n.toNat := Nat.sqrt_le _
  have h2 : n.toNat < (Nat.sqrt n.toNat + 1) * (Nat.sqrt n.toNat + 1) := Nat.lt_succ_sqrt _
  have h3 : n ≤ (k : Int) * k + k ↔ n.toNat ≤ k * k + k := by
    rw [Int.toNat_le]; push_cast; rfl
  rw [h3]
  unfold roundSqrt
  dsimp only
  generalize Nat.sqrt n.toNat = s at *
  generalize n.toNat = m at *
  split
  · rename_i h
    constructor
    · intro hs
      have hs : s ≤ k := by exact_mod_cast hs
      nlinarith [Nat.mul_le_mul hs hs]
    · intro hm
      by_contra hc
      have hc : k + 1 ≤ s := by
        have : ¬ (s ≤ k) := fun h => hc (by exact_mod_cast h)
        omega
      nlinarith [Nat.mul_le_mul hc hc]
  · rename_i h
    constructor
    · intro hs
      have hs : s + 1 ≤ k := by exact_mod_cast hs
      nlinarith [Nat.mul_le_mul hs hs]
    · intro hm
      by_contra hc
      have hc : k ≤ s := by
        have : ¬ (s + 1 ≤ k) := fun h => hc (by exact_mod_cast h)
        omega
      nlinarith [Nat.mul_le_mul hc hc]

theorem le_roundSqrt_iff (n k : Int) (hk : 1 ≤ k) : k ≤ roundSqrt n ↔ k * k - k < n := by
  have h := roundSqrt_le_iff n (k - 1) (by omega)
  have e : (k - 1) * (k - 1) + (k - 1) = k * k - k := by ring
  rw [e] at h
  constructor
  · intro h1
    by_contra h2
    have := h.2 (by omega)
    omega
  · intro h1
    by_contra h2
    have := h.1 (by omega)
    omega

theorem roundSqrt_eq_iff (n y : Int) (hy : 0 ≤ y) :
    roundSqrt n = y ↔ n ≤ y * y + y ∧ (y = 0 ∨ y * y - y < n) := by
  have h1 := roundSqrt_le_iff n y hy
  have h0 := roundSqrt_nonneg n
  constructor
  · intro h
    refine ⟨h1.1 (le_of_eq h), ?_⟩
    by_cases hy0 : y = 0
    · exact Or.inl hy0
    · exact Or.inr ((le_roundSqrt_iff n y (by omega)).1 (le_of_eq h.symm))
  · rintro ⟨ha, hb⟩
    have h2 := h1.2 ha
    rcases hb with hb | hb
    · omega
    · by_cases hy0 : y = 0
      · omega
      · have := (le_roundSqrt_iff n y (by omega)).2 hb
        omega

/-- On non-negative integers `roundSqrt` is the real square root rounded to
the nearest integer. -/
theorem roundSqrt_eq_round (n : Int) (hn : 0 ≤ n) :
    roundSqrt n = round (Real.sqrt (n : ℝ)) := by
  symm
  rw [round_eq, Int.floor_eq_iff]
  have h0 := roundSqrt_nonneg n
  obtain ⟨ha, hb⟩ := (roundSqrt_eq_iff n (roundSqrt n) h0).1 rfl
  generalize roundSqrt n = y at *
  have hnR : (0 : ℝ) ≤ (n : ℝ) := by exact_mod_cast hn
  have hyR : (0 : ℝ) ≤ (y : ℝ) := by exact_mod_cast h0
  have haR : (n : ℝ) ≤ (y : ℝ) * y + y := by exact_mod_cast ha
  constructor
  · -- y - 1/2 ≤ sqrt n
    rcases hb with hb | hb
    · subst hb
      have := Real.sqrt_nonneg (n : ℝ)
      push_cast
      linarith
    · have hbR : (y : ℝ) * y - y + 1 ≤ (n : ℝ) := by exact_mod_cast (by omega : y * y - y + 1 ≤ n)
      have : (y : ℝ) - 1 / 2 ≤ Real.sqrt (n : ℝ) := by
        apply Real.le_sqrt_of_sq_le
        nlinarith
      linarith
  · -- sqrt n < y + 1/2
    have : Real.sqrt (n : ℝ) < (y : ℝ) + 1 / 2 := by
      rw [Real.sqrt_lt' (by linarith)]
      nlinarith
    linarith

/-- The real square root of a non-negative integer is strictly closer than
`1/2` to `roundSqrt`: no tie arises in the rounding. -/
theorem abs_sqrt_sub_roundSqrt_lt (n : Int) (hn : 0 ≤ n) :
    |Real.sqrt (n : ℝ) - (roundSqrt n : ℝ)| < 1 / 2 := by
  have h0 := roundSqrt_nonneg n
  obtain ⟨ha, hb⟩ := (roundSqrt_eq_iff n (roundSqrt n) h0).1 rfl
  generalize roundSqrt n = y at *
  have hnR : (0 : ℝ) ≤ (n : ℝ) := by exact_mod_cast hn
  have hyR : (0 : ℝ) ≤ (y : ℝ) := by exact_mod_cast h0
  have haR : (n : ℝ) ≤ (y : ℝ) * y + y := by exact_mod_cast ha
  have hs := Real.sqrt_nonneg (n : ℝ)
  have hup : Real.sqrt (n : ℝ) < (y : ℝ) + 1 / 2 := by
    rw [Real.sqrt_lt' (by linarith)]
    nlinarith
  have hlo : (y : ℝ) - 1 / 2 < Real.sqrt (n : ℝ) := by
    rcases hb with hb | hb
    · subst hb
      push_cast
      linarith
    · have hbR : (y : ℝ) * y - y + 1 ≤ (n : ℝ) := by
        exact_mod_cast (by omega : y * y - y + 1 ≤ n)
      have hy1 : (1 : ℝ) ≤ (y : ℝ) := by
        have : 1 ≤ y := by
          by_contra hc
          have : y = 0 := by omega
          subst this
          omega
        exact_mod_cast this
      rw [Real.lt_sqrt (by linarith)]
      nlinarith
  rw [abs_lt]
  constructor <;> linarith

/-! ## The states visited by the loop -/

theorem tracks_of_mem_loopStates (r : Int) (s0 : LoopState) (h0 : Tracks r s0) :
    ∀ s ∈ loopStates (r * r) s0, Tracks r s ∧ s.x ≤ s.y := by
  induction s0 using loopStates.induct (r * r) with
  | case1 s hc ih =>
    intro t ht
    rw [loopStates_of_le _ s hc, List.mem_cons] at ht
    rcases ht with rfl | ht
    · exact ⟨h0, hc⟩
    · exact ih (tracks_body r s h0 hc) t ht
  | case2 s hc =>
    intro t ht
    rw [loopStates_of_not_le _ s hc] at ht
    simp at ht

/-- At a state where the body runs, `y` is the rounded square root of
`r² - x²`. -/
theorem Tracks.y_eq_roundSqrt {r : Int} {s : LoopState} (h : Tracks r s) (hc : s.x ≤ s.y) :
    s.y = roundSqrt (r * r - s.x * s.x) := by
  have hy : 0 ≤ s.y := le_trans h.x_nonneg hc
  exact ((roundSqrt_eq_iff _ _ hy).2 ⟨h.upper, h.lower hc⟩).symm

/-- Every column `x` at or after the current one with `x ≤ round(sqrt(r² - x²))`
is reached by the loop. -/
theorem exists_mem_loopStates (r : Int) (s0 : LoopState) (h0 : Tracks r s0) (x : Int)
    (hx : s0.x ≤ x) (hxy : x = 0 ∨ x * x - x < r * r - x * x) :
    ∃ s ∈ loopStates (r * r) s0, s.x = x := by
  induction s0 using loopStates.induct (r * r) with
  | case1 s hc ih =>
    rw [loopStates_of_le _ s hc]
    by_cases hxs : s.x = x
    · exact ⟨s, List.mem_cons_self _ _, hxs⟩
    · obtain ⟨t, ht, htx⟩ := ih (tracks_body r s h0 hc) (by rw [body_x]; omega)
      exact ⟨t, List.mem_cons_of_mem _ ht, htx⟩
  | case2 s hc =>
    exfalso
    obtain ⟨hx0, -, -, -, hgap, hst, hup, -⟩ := h0
    have hys : s.y < s.x := by omega
    rcases hxy with hxy | hxy
    · -- x = 0, so the state is at column 0 with y < 0: excluded by the invariant
      have := hst (by omega)
      omega
    · -- 1 ≤ s.x: then y² + y ≤ s.x² - s.x ≤ x² - x
      have hx1 : 1 ≤ x := by
        by_contra hcon
        have hx0' : x = 0 := by omega
        subst hx0'
        have : s.x = 0 := by omega
        omega
      by_cases hs1 : s.x = 0
      · have := hst hs1
        omega
      · have hs1 : 1 ≤ s.x := by omega
        have hyy : s.y * s.y + s.y ≤ s.x * s.x - s.x := by
          have : s.y = s.x - 1 ∨ s.y = s.x - 2 := by omega
          rcases this with e | e <;> rw [e] <;> nlinarith
        nlinarith [mul_nonneg (sub_nonneg.2 hx) (by omega : (0 : Int) ≤ x + s.x - 1)]

/-! ## Equivalence with the square-root method -/

theorem mem_drawCircleSqrtLoop (y rsq : Int) (x0 : Int) (p : Int × Int) :
    p ∈ drawCircleSqrtLoop y rsq x0 ↔
      ∃ x : Int, x0 ≤ x ∧ x ≤ y ∧ p ∈ putPixels x (roundSqrt (rsq - x * x)) := by
  induction x0 using drawCircleSqrtLoop.induct y rsq with
  | case1 x0 h ih =>
    rw [drawCircleSqrtLoop, if_pos h]
    simp only [List.mem_append, ih]
    constructor
    · rintro (h1 | ⟨x, h1, h2, h3⟩)
      · exact ⟨x0, le_refl _, h, h1⟩
      · exact ⟨x, by omega, h2, h3⟩
    · rintro ⟨x, h1, h2, h3⟩
      by_cases hx : x = x0
      · subst hx
        exact Or.inl h3
      · exact Or.inr ⟨x, by omega, h2, h3⟩
  | case2 x0 h =>
    rw [drawCircleSqrtLoop, if_neg h]
    simp only [List.not_mem_nil, false_iff]
    rintro ⟨x, h1, h2, -⟩
    omega

theorem mem_drawCircleSqrt (r : Int) (p : Int × Int) :
    p ∈ drawCircleSqrt r ↔
      ∃ x : Int, 0 ≤ x ∧ x ≤ r ∧ p ∈ putPixels x (roundSqrt (r * r - x * x)) := by
  unfold drawCircleSqrt
  rw [mem_drawCircleSqrtLoop]

/-- The states at which the body of `drawCircleInt(r, _)` runs are exactly the
columns `0 ≤ x` with `x ≤ round(sqrt(r² - x²))`, each with that rounded value
as its `y`. -/
theorem visited_iff (r : Int) (hr : 0 ≤ r) (x y : Int) :
    (∃ s ∈ loopStates (r * r) (initState r), s.x = x ∧ s.y = y) ↔
      0 ≤ x ∧ x ≤ y ∧ y = roundSqrt (r * r - x * x) := by
  have h0 := tracks_initState r hr
  constructor
  · rintro ⟨s, hs, rfl, rfl⟩
    obtain ⟨ht, hc⟩ := tracks_of_mem_loopStates r _ h0 s hs
    exact ⟨ht.x_nonneg, hc, ht.y_eq_roundSqrt hc⟩
  · rintro ⟨hx, hxy, hy⟩
    have hxy' : x = 0 ∨ x * x - x < r * r - x * x := by
      by_cases hx0 : x = 0
      · exact Or.inl hx0
      · right
        rw [hy] at hxy
        exact (le_roundSqrt_iff _ _ (by omega)).1 hxy
    obtain ⟨s, hs, hsx⟩ := exists_mem_loopStates r _ h0 x (by simpa [initState] using hx) hxy'
    obtain ⟨ht, hc⟩ := tracks_of_mem_loopStates r _ h0 s hs
    refine ⟨s, hs, hsx, ?_⟩
    rw [ht.y_eq_roundSqrt hc, hsx, hy]

/-- A column of the oracle beyond the diagonal is the mirror image of a column
before it: if `y = round(sqrt(r² - x²)) < x` then `round(sqrt(r² - y²)) = x`. -/
theorem roundSqrt_mirror (r x : Int) (hx : 0 ≤ x) (hxr : x ≤ r)
    (hlt : roundSqrt (r * r - x * x) < x) :
    roundSqrt (r * r - roundSqrt (r * r - x * x) * roundSqrt (r * r - x * x)) = x := by
  have hy0 := roundSqrt_nonneg (r * r - x * x)
  obtain ⟨ha, hb⟩ := (roundSqrt_eq_iff (r * r - x * x) _ hy0).1 rfl
  generalize roundSqrt (r * r - x * x) = y at *
  rw [roundSqrt_eq_iff _ _ hx]
  refine ⟨by omega, Or.inr ?_⟩
  rcases hb with hb | hb
  · subst hb
    nlinarith
  · omega

theorem mem_drawCircleInt_iff_mem_drawCircleSqrt (r : Int) (hr : 0 ≤ r) (p : Int × Int) :
    p ∈ drawCircleInt r ↔ p ∈ drawCircleSqrt r := by
  rw [mem_drawCircleInt, mem_drawCircleSqrt r]
  constructor
  · rintro ⟨s, hs, hp⟩
    obtain ⟨hx, hxy, hy⟩ := (visited_iff r hr s.x s.y).1 ⟨s, hs, rfl, rfl⟩
    have ht := (tracks_of_mem_loopStates r _ (tracks_initState r hr) s hs).1
    exact ⟨s.x, hx, by have := ht.y_le; omega, by rw [← hy]; exact hp⟩
  · rintro ⟨x, hx, hxr, hp⟩
    by_cases hxy : x ≤ roundSqrt (r * r - x * x)
    · obtain ⟨s, hs, hsx, hsy⟩ := (visited_iff r hr x _).2 ⟨hx, hxy, rfl⟩
      exact ⟨s, hs, by rw [hsx, hsy]; exact hp⟩
    · have hlt : roundSqrt (r * r - x * x) < x := by omega
      have hm := roundSqrt_mirror r x hx hxr hlt
      have hy0 := roundSqrt_nonneg (r * r - x * x)
      obtain ⟨s, hs, hsx, hsy⟩ :=
        (visited_iff r hr (roundSqrt (r * r - x * x)) x).2 ⟨hy0, by omega, hm.symm⟩
      refine ⟨s, hs, ?_⟩
      rw [hsx, hsy, mem_putPixels_swap]
      exact hp

/-! ## The loop as an iteration of its body -/

/-- The list of visited states has length `n` where `n` is the first iteration
count at which the loop condition fails, and its `m`-th entry is the `m`-fold
iterate of the body. -/
theorem loopStates_iterate (rsq : Int) (s : LoopState) :
    (¬ ((body rsq)^[(loopStates rsq s).length] s).x ≤
        ((body rsq)^[(loopStates rsq s).length] s).y) ∧
    ∀ m, m < (loopStates rsq s).length →
      ((body rsq)^[m] s).x ≤ ((body rsq)^[m] s).y ∧
      (loopStates rsq s)[m]? = some ((body rsq)^[m] s) := by
  induction s using loopStates.induct rsq with
  | case1 s hc ih =>
    rw [loopStates_of_le rsq s hc]
    obtain ⟨ih1, ih2⟩ := ih
    refine ⟨?_, ?_⟩
    · rw [List.length_cons, Function.iterate_succ_apply]
      exact ih1
    · intro m hm
      cases m with
      | zero => exact ⟨hc, by simp⟩
      | succ k =>
        rw [Function.iterate_succ_apply, List.getElem?_cons_succ]
        exact ih2 k (by simpa using hm)
  | case2 s hc =>
    rw [loopStates_of_not_le rsq s hc]
    refine ⟨hc, ?_⟩
    intro m hm
    simp at hm

theorem length_loopStates_le (r : Int) (hr : 0 ≤ r) :
    ((loopStates (r * r) (initState r)).length : Int) ≤ r + 1 := by
  have h0 := tracks_initState r hr
  have hx : ∀ m : Nat, (((body (r * r))^[m] (initState r)).x) = m := by
    intro m
    induction m with
    | zero => rfl
    | succ k ih =>
      rw [Function.iterate_succ_apply', body_x, ih]
      push_cast
      rfl
  by_contra hcon
  set n := (loopStates (r * r) (initState r)).length with hn
  have hlt : n - 1 < n := by omega
  obtain ⟨-, hget⟩ := (loopStates_iterate (r * r) (initState r)).2 (n - 1) hlt
  have hmem := List.getElem?_mem hget
  obtain ⟨ht, hc⟩ := tracks_of_mem_loopStates r _ h0 _ hmem
  have hxm := hx (n - 1)
  have := ht.y_le
  omega

theorem drawCircleInt_eq_flatMap_visitedPoints (r : Int) :
    drawCircleInt r = (visitedPoints r).flatMap (fun p => putPixels p.1 p.2) := by
  unfold drawCircleInt visitedPoints
  rw [drawCircleIntLoop_eq_flatMap, List.flatMap_map]

theorem drawCircleInt_three :
    drawCircleInt 3 =
      [(0, 3), (3, 0), (0, 3), (-3, 0), (0, -3), (3, 0), (0, -3), (-3, 0),
       (1, 3), (3, 1), (-1, 3), (-3, 1), (1, -3), (3, -1), (-1, -3), (-3, -1),
       (2, 2), (2, 2), (-2, 2), (-2, 2), (2, -2), (2, -2), (-2, -2), (-2, -2)] := by
  simp [drawCircleInt, drawCircleIntLoop, initState, body, putPixels]

/-- The loop for radius 3 visits `(0,3)`, `(1,3)`, `(2,2)` and stops. -/
theorem visitedPoints_three : visitedPoints 3 = [(0, 3), (1, 3), (2, 2)] := by
  simp [visitedPoints, loopStates, initState, body]

/-! ## Facts about the text renderer -/

theorem length_newlineLoop (size i : Nat) (buf : List Char) :
    (newlineLoop size i buf).length = buf.length := by
  induction i, buf using newlineLoop.induct size with
  | case1 i buf h ih =>
    rw [newlineLoop, if_pos h, ih, List.length_set]
  | case2 i buf h =>
    rw [newlineLoop, if_neg h]

/-- After the newline loop started at index `i`, the positions `i`,
`i + (size+1)`, `i + 2(size+1)`, ... hold `'\n'` and the others are
unchanged. -/
theorem getElem?_newlineLoop (size i : Nat) (buf : List Char) (k : Nat) (hk : k < buf.length) :
    (newlineLoop size i buf)[k]? =
      if i ≤ k ∧ (size + 1) ∣ (k - i) then some '\n' else buf[k]? := by
  induction i, buf using newlineLoop.induct size with
  | case1 i buf h ih =>
    rw [newlineLoop, if_pos h, ih (by rw [List.length_set]; exact hk)]
    by_cases hik : i = k
    · subst hik
      have h1 : ¬ (i + (size + 1) ≤ i ∧ (size + 1) ∣ (i - (i + (size + 1)))) := by
        rintro ⟨h1, -⟩; omega
      rw [if_neg h1, if_pos ⟨le_refl _, by simp⟩]
      simp [h]
    · have hset : (buf.set i '\n')[k]? = buf[k]? := by
        rw [List.getElem?_set_ne hik]
      rw [hset]
      by_cases hc : i ≤ k ∧ (size + 1) ∣ (k - i)
      · have h2 : i + (size + 1) ≤ k ∧ (size + 1) ∣ (k - (i + (size + 1))) := by
          obtain ⟨hc1, c, hc2⟩ := hc
          cases c with
          | zero => simp at hc2; omega
          | succ d =>
            rw [Nat.mul_succ] at hc2
            exact ⟨by omega, d, by omega⟩
        rw [if_pos h2, if_pos hc]
      · have h2 : ¬ (i + (size + 1) ≤ k ∧ (size + 1) ∣ (k - (i + (size + 1)))) := by
          rintro ⟨h3, d, hd⟩
          apply hc
          refine ⟨by omega, d + 1, ?_⟩
          rw [Nat.mul_succ]; omega
        rw [if_neg h2, if_neg hc]
  | case2 i buf h =>
    rw [newlineLoop, if_neg h]
    have : ¬ (i ≤ k ∧ (size + 1) ∣ (k - i)) := by
      rintro ⟨h1, -⟩; omega
    rw [if_neg this]

theorem emitted_bounds (r : Int) (hr : 0 ≤ r) (p : Int × Int) (h : p ∈ drawCircleInt r) :
    -r ≤ p.1 ∧ p.1 ≤ r ∧ -r ≤ p.2 ∧ p.2 ≤ r := by
  obtain ⟨s, hs, hp⟩ := (mem_drawCircleInt r p).1 h
  obtain ⟨ht, hc⟩ := tracks_of_mem_loopStates r _ (tracks_initState r hr) s hs
  have h0 := ht.x_nonneg
  have h1 := ht.y_le
  rw [mem_putPixels] at hp
  omega

/-- A sequence of in-range stores of `'#'` succeeds, keeps the length, and
changes exactly the stored positions. -/
theorem foldlM_store (idx : Int × Int → Int) (pts : List (Int × Int)) (buf : List Char)
    (h : ∀ p ∈ pts, 0 ≤ idx p ∧ idx p < buf.length) :
    ∃ out, pts.foldlM (fun b p => store b (idx p) '#') buf = some out ∧
      out.length = buf.length ∧
      ∀ k : Nat, k < buf.length →
        ((∃ p ∈ pts, idx p = k) → out[k]? = some '#') ∧
        ((¬ ∃ p ∈ pts, idx p = k) → out[k]? = buf[k]?) := by
  induction pts generalizing buf with
  | nil =>
    refine ⟨buf, rfl, rfl, ?_⟩
    intro k _
    exact ⟨fun ⟨p, hp, _⟩ => absurd hp (List.not_mem_nil p), fun _ => rfl⟩
  | cons q qs ih =>
    obtain ⟨hq0, hq1⟩ := h q (List.mem_cons_self _ _)
    have hst : store buf (idx q) '#' = some (buf.set (idx q).toNat '#') := by
      unfold store
      rw [if_pos ⟨hq0, hq1⟩]
    have hlen : (buf.set (idx q).toNat '#').length = buf.length := List.length_set ..
    obtain ⟨out, ho1, ho2, ho3⟩ := ih (buf.set (idx q).toNat '#') (by
      intro p hp
      rw [hlen]
      exact h p (List.mem_cons_of_mem _ hp))
    refine ⟨out, ?_, by rw [ho2, hlen], ?_⟩
    · rw [List.foldlM_cons, hst]
      exact ho1
    · intro k hk
      obtain ⟨hk1, hk2⟩ := ho3 k (by rw [hlen]; exact hk)
      by_cases hex : ∃ p ∈ qs, idx p = k
      · exact ⟨fun _ => hk1 hex, fun hn => absurd
          (by obtain ⟨p, hp, e⟩ := hex; exact ⟨p, List.mem_cons_of_mem _ hp, e⟩) hn⟩
      · rw [hk2 hex]
        constructor
        · rintro ⟨p, hp, e⟩
          rcases List.mem_cons.1 hp with rfl | hp
          · have : (idx p).toNat = k := by omega
            rw [this, List.getElem?_set_eq_of_lt _ hk]
          · exact absurd ⟨p, hp, e⟩ hex
        · intro hn
          have hne : (idx q).toNat ≠ k := by
            intro e
            apply hn
            exact ⟨q, List.mem_cons_self _ _, by omega⟩
          rw [List.getElem?_set_ne hne]

/-- Row and column are recovered uniquely from a buffer index. -/
theorem pixelIndex_eq_iff (r : Nat) (x y : Int) (i j : Nat)
    (hx0 : -(r : Int) ≤ x) (hx1 : x ≤ r) (hj : j < 2 * r + 2) :
    pixelIndex r x y = ((i * (2 * r + 2) + j : Nat) : Int) ↔
      (r : Int) - y = i ∧ x + r = j := by
  unfold pixelIndex
  push_cast
  constructor
  · intro h
    have key : ((r : Int) - y - i) * (2 * r + 2) = j - (x + r) := by linarith
    have hz : (r : Int) - y - i = 0 := by
      rcases lt_trichotomy ((r : Int) - y - i) 0 with hlt | heq | hgt
      · have : ((r : Int) - y - i) * (2 * r + 2) ≤ -1 * (2 * r + 2) :=
          Int.mul_le_mul_of_nonneg_right (by omega) (by omega)
        omega
      · exact heq
      · have : 1 * (2 * (r : Int) + 2) ≤ ((r : Int) - y - i) * (2 * r + 2) :=
          Int.mul_le_mul_of_nonneg_right (by omega) (by omega)
        omega
    rw [hz] at key
    omega
  · rintro ⟨h1, h2⟩
    rw [h1]
    linarith

theorem drawCircleText_natCast (r : Nat) :
    drawCircleText (r : Int) =
      (drawCircleInt r).foldlM (fun buf p => store buf (pixelIndex r p.1 p.2) '#')
        (newlineLoop (2 * r + 1) (2 * r + 1)
          (List.replicate ((2 * r + 2) * (2 * r + 1)) ' ')) := by
  unfold drawCircleText
  dsimp only
  rw [if_neg (by omega)]
  have e1 : ((r : Int) * 2 + 1).toNat = 2 * r + 1 := by omega
  have e2 : (((r : Int) * 2 + 1 + 1) * ((r : Int) * 2 + 1)).toNat = (2 * r + 2) * (2 * r + 1) := by
    have : ((r : Int) * 2 + 1 + 1) * ((r : Int) * 2 + 1) =
        (((2 * r + 2) * (2 * r + 1) : Nat) : Int) := by
      push_cast; ring
    rw [this, Int.toNat_natCast]
  rw [e1, e2]

/-- The buffer of `drawCircleText` before any pixel is stored: spaces, with
`'\n'` at the end of each row. -/
theorem getElem?_base (r i j : Nat) (hi : i < 2 * r + 1) (hj : j < 2 * r + 2) :
    (newlineLoop (2 * r + 1) (2 * r + 1)
      (List.replicate ((2 * r + 2) * (2 * r + 1)) ' '))[i * (2 * r + 2) + j]? =
      some (if j = 2 * r + 1 then '\n' else ' ') := by
  have hk : i * (2 * r + 2) + j < (2 * r + 2) * (2 * r + 1) := by
    have : (i + 1) * (2 * r + 2) ≤ (2 * r + 1) * (2 * r + 2) :=
      Nat.mul_le_mul_right _ (by omega)
    rw [Nat.succ_mul] at this
    rw [Nat.mul_comm (2 * r + 2)]
    omega
  rw [getElem?_newlineLoop _ _ _ _ (by rw [List.length_replicate]; exact hk)]
  rw [List.getElem?_replicate, if_pos hk]
  have hW : 2 * r + 1 + 1 = 2 * r + 2 := rfl
  rw [hW]
  by_cases hj' : j = 2 * r + 1
  · subst hj'
    rw [if_pos rfl, if_pos]
    exact ⟨by omega, i, by rw [Nat.add_sub_cancel, Nat.mul_comm]⟩
  · rw [if_neg hj', if_neg]
    rintro ⟨h1, c, hc⟩
    rw [Nat.mul_comm (2 * r + 2) c] at hc
    rcases Nat.lt_or_ge c i with hlt | hge
    · have h3 : (c + 1) * (2 * r + 2) ≤ i * (2 * r + 2) := Nat.mul_le_mul_right _ hlt
      have h4 : (c + 1) * (2 * r + 2) = c * (2 * r + 2) + (2 * r + 2) := add_one_mul c _
      omega
    · have h3 : i * (2 * r + 2) ≤ c * (2 * r + 2) := Nat.mul_le_mul_right _ hge
      omega

theorem pixelIndex_bounds (r : Nat) (x y : Int)
    (hx0 : -(r : Int) ≤ x) (hx1 : x ≤ r) (hy0 : -(r : Int) ≤ y) (hy1 : y ≤ r) :
    0 ≤ pixelIndex r x y ∧
    pixelIndex r x y < (((2 * r + 2) * (2 * r + 1) : Nat) : Int) ∧
    pixelIndex r x y % (2 * (r : Int) + 2) = x + r := by
  unfold pixelIndex
  have h1 : 0 ≤ ((r : Int) * 2 + 1 + 1) * ((r : Int) - y) :=
    Int.mul_nonneg (by omega) (by omega)
  have h2 : ((r : Int) * 2 + 1 + 1) * ((r : Int) - y) ≤ ((r : Int) * 2 + 1 + 1) * (2 * r) :=
    Int.mul_le_mul_of_nonneg_left (by omega) (by omega)
  refine ⟨by omega, ?_, ?_⟩
  · push_cast
    have e : (2 * (r : Int) + 2) * (2 * r + 1) = ((r : Int) * 2 + 1 + 1) * (2 * r) + (2 * r + 2) := by
      ring
    rw [e]
    omega
  · have e : ((r : Int) * 2 + 1 + 1) * ((r : Int) - y) + x + r =
        (x + r) + (2 * (r : Int) + 2) * ((r : Int) - y) := by ring
    rw [e, Int.add_mul_emod_self_left]
    exact Int.emod_eq_of_lt (by omega) (by omega)

/-- The complete description of the output of `drawCircleText` for a radius
`r ≥ 0` (given as a natural number). -/
theorem drawCircleText_description (r : Nat) :
    ∃ out : List Char, drawCircleText (r : Int) = some out ∧
      out.length = (2 * r + 1) * (2 * r + 2) ∧
      ∀ i, i < 2 * r + 1 →
        (∀ j, j < 2 * r + 1 →
          out[i * (2 * r + 2) + j]? =
            some (if (((j : Int) - r, (r : Int) - i) : Int × Int) ∈ drawCircleInt r
                  then '#' else ' ')) ∧
        out[i * (2 * r + 2) + (2 * r + 1)]? = some '\n' := by
  have hr : (0 : Int) ≤ r := Int.natCast_nonneg r
  have hb : ∀ p ∈ drawCircleInt (r : Int),
      -(r : Int) ≤ p.1 ∧ p.1 ≤ r ∧ -(r : Int) ≤ p.2 ∧ p.2 ≤ r :=
    fun p hp => emitted_bounds r hr p hp
  have hlen0 : (newlineLoop (2 * r + 1) (2 * r + 1)
      (List.replicate ((2 * r + 2) * (2 * r + 1)) ' ')).length = (2 * r + 2) * (2 * r + 1) := by
    rw [length_newlineLoop, List.length_replicate]
  obtain ⟨out, ho1, ho2, ho3⟩ := foldlM_store (fun p => pixelIndex r p.1 p.2)
    (drawCircleInt r) _ (by
      intro p hp
      obtain ⟨h1, h2, h3, h4⟩ := hb p hp
      obtain ⟨h5, h6, -⟩ := pixelIndex_bounds r p.1 p.2 h1 h2 h3 h4
      rw [hlen0]
      exact ⟨h5, h6⟩)
  refine ⟨out, by rw [drawCircleText_natCast]; exact ho1, by rw [ho2, hlen0, Nat.mul_comm], ?_⟩
  intro i hi
  have hk : ∀ j, j < 2 * r + 2 → i * (2 * r + 2) + j < (2 * r + 2) * (2 * r + 1) := by
    intro j hj
    have : (i + 1) * (2 * r + 2) ≤ (2 * r + 1) * (2 * r + 2) :=
      Nat.mul_le_mul_right _ (by omega)
    rw [Nat.succ_mul] at this
    rw [Nat.mul_comm (2 * r + 2)]
    omega
  constructor
  · intro j hj
    obtain ⟨h1, h2⟩ := ho3 (i * (2 * r + 2) + j) (by rw [hlen0]; exact hk j (by omega))
    by_cases hmem : (((j : Int) - r, (r : Int) - i) : Int × Int) ∈ drawCircleInt r
    · rw [if_pos hmem]
      apply h1
      refine ⟨_, hmem, ?_⟩
      obtain ⟨b1, b2, -, -⟩ := hb _ hmem
      exact (pixelIndex_eq_iff r _ _ i j b1 b2 (by omega)).2 ⟨by simp, by simp⟩
    · rw [if_neg hmem, h2, getElem?_base r i j hi (by omega), if_neg (by omega)]
      rintro ⟨p, hp, e⟩
      obtain ⟨b1, b2, -, -⟩ := hb p hp
      obtain ⟨e1, e2⟩ := (pixelIndex_eq_iff r _ _ i j b1 b2 (by omega)).1 e
      apply hmem
      have : p = ((j : Int) - r, (r : Int) - i) := by
        ext
        · simp only; omega
        · simp only; omega
      rw [← this]
      exact hp
  · obtain ⟨-, h2⟩ := ho3 (i * (2 * r + 2) + (2 * r + 1)) (by rw [hlen0]; exact hk _ (by omega))
    rw [h2, getElem?_base r i _ hi (by omega), if_pos rfl]
    rintro ⟨p, hp, e⟩
    obtain ⟨b1, b2, -, -⟩ := hb p hp
    obtain ⟨e1, e2⟩ := (pixelIndex_eq_iff r _ _ i (2 * r + 1) b1 b2 (by omega)).1 e
    push_cast at e2
    omega

/-! ## The tie-break -/

/-- The decision of the loop body is the comparison of `a - rsq` with
`rsq - b`. -/
theorem body_eq_ite (rsq : Int) (s : LoopState) :
    body rsq s =
      if aMinusRsq rsq s ≥ rsqMinusB rsq s then
        { x := s.x + 1, y := s.y - 1, xsq := s.xsq + 2 * s.x + 1, ysq := s.ysq - 2 * s.y + 1 }
      else
        { x := s.x + 1, y := s.y, xsq := s.xsq + 2 * s.x + 1, ysq := s.ysq } := rfl

theorem drawCircleText_zero_eval : drawCircleText 0 = some ['#', '\n'] := by
  have h : drawCircleInt 0 =
      [(0, 0), (0, 0), (0, 0), (0, 0), (0, 0), (0, 0), (0, 0), (0, 0)] := by
    simp [drawCircleInt, drawCircleIntLoop, initState, body, putPixels]
  unfold drawCircleText
  rw [h]
  simp only [Int.reduceMul, Int.reduceAdd, Int.reduceLT, if_false, Int.reduceToNat]
  rw [newlineLoop, newlineLoop]
  decide

theorem drawCircleText_three_eval :
    drawCircleText 3 =
      some "  ###  \n #   # \n#     #\n#     #\n#     #\n #   # \n  ###  \n".toList := by
  unfold drawCircleText
  rw [drawCircleInt_three]
  simp only [Int.reduceMul, Int.reduceAdd, Int.reduceLT, if_false, Int.reduceToNat]
  iterate 9 rw [newlineLoop]
  decide

/-! ## Further facts about the loop -/

theorem iterate_body_x (rsq : Int) (s : LoopState) (m : Nat) :
    ((body rsq)^[m] s).x = s.x + m := by
  induction m with
  | zero => simp
  | succ k ih =>
    rw [Function.iterate_succ_apply', body_x, ih]
    push_cast
    ring

/-- Every visited state is an iterate of the body below the iteration count. -/
theorem mem_loopStates_iff (rsq : Int) (s0 s : LoopState) :
    s ∈ loopStates rsq s0 ↔
      ∃ m, m < (loopStates rsq s0).length ∧ s = (body rsq)^[m] s0 := by
  constructor
  · intro h
    obtain ⟨m, hm⟩ := List.mem_iff_getElem?.1 h
    have hlt : m < (loopStates rsq s0).length := by
      by_contra hc
      rw [List.getElem?_eq_none (by omega)] at hm
      simp at hm
    have := ((loopStates_iterate rsq s0).2 m hlt).2
    rw [this] at hm
    exact ⟨m, hlt, (Option.some.inj hm).symm⟩
  · rintro ⟨m, hm, rfl⟩
    exact List.getElem?_mem ((loopStates_iterate rsq s0).2 m hm).2

theorem loopStates_ne_nil (r : Int) (hr : 0 ≤ r) :
    0 < (loopStates (r * r) (initState r)).length := by
  rw [loopStates_of_le _ _ (by simpa [initState] using hr)]
  simp

/-- The `m`-th visited state, for `m` below the iteration count: column `m`
with the rounded square root as its `y`. -/
theorem visitedPoints_getElem? (r : Int) (hr : 0 ≤ r) (m : Nat)
    (hm : m < (loopStates (r * r) (initState r)).length) :
    (visitedPoints r)[m]? = some ((m : Int), roundSqrt (r * r - (m : Int) * m)) := by
  obtain ⟨hc, hget⟩ := (loopStates_iterate (r * r) (initState r)).2 m hm
  have hmem := List.getElem?_mem hget
  obtain ⟨ht, -⟩ := tracks_of_mem_loopStates r _ (tracks_initState r hr) _ hmem
  have hx : ((body (r * r))^[m] (initState r)).x = m := by
    rw [iterate_body_x]; simp [initState]
  have hy := ht.y_eq_roundSqrt hc
  rw [hx] at hy
  unfold visitedPoints
  rw [List.getElem?_map, hget, Option.map_some', hx, hy]

/-- When `y ≥ 1` the signed test of the body picks the candidate with the
smaller squared-distance error, a tie going to `y - 1`. -/
theorem body_y_eq_nearestCandidate (r : Int) (s : LoopState)
    (hx : s.xsq = s.x * s.x) (hy : s.ysq = s.y * s.y) (h1 : 1 ≤ s.y) :
    (body (r * r) s).y = nearestCandidate r (s.x + 1) s.y := by
  have e1 : (s.x + 1) * (s.x + 1) = s.x * s.x + 2 * s.x + 1 := by ring
  have e2 : (s.y - 1) * (s.y - 1) = s.y * s.y - 2 * s.y + 1 := by ring
  unfold body nearestCandidate
  dsimp only
  rw [hx, hy, e1, e2]
  rcases abs_cases (s.x * s.x + 2 * s.x + 1 + s.y * s.y - r * r) with ⟨ha, ha'⟩ | ⟨ha, ha'⟩ <;>
  rcases abs_cases (s.x * s.x + 2 * s.x + 1 + (s.y * s.y - 2 * s.y + 1) - r * r)
    with ⟨hb, hb'⟩ | ⟨hb, hb'⟩ <;>
  rw [ha, hb] <;>
  split <;> split <;> first | rfl | (exfalso; omega)

/-- For `r ≥ 1` every state at which the body runs has `y ≥ 1`. -/
theorem one_le_y_of_mem_loopStates (r : Int) (hr : 1 ≤ r) (s : LoopState)
    (hs : s ∈ loopStates (r * r) (initState r)) : 1 ≤ s.y := by
  obtain ⟨ht, hc⟩ := tracks_of_mem_loopStates r _ (tracks_initState r (by omega)) s hs
  by_contra hcon
  have h0 := ht.x_nonneg
  have hy0 : s.y = 0 := by omega
  have hx0 : s.x = 0 := by omega
  have hup := ht.upper
  rw [hy0, hx0] at hup
  nlinarith

/-- For `r ≥ 1`, at every iteration the `y` carried on is the candidate with
the smaller squared-distance error. -/
theorem decision_nearest_of_pos (r : Int) (hr : 1 ≤ r) (s : LoopState)
    (hs : s ∈ loopStates (r * r) (initState r)) :
    (body (r * r) s).y = nearestCandidate r (s.x + 1) s.y := by
  obtain ⟨ht, -⟩ := tracks_of_mem_loopStates r _ (tracks_initState r (by omega)) s hs
  exact body_y_eq_nearestCandidate r s ht.xsq_eq ht.ysq_eq
    (one_le_y_of_mem_loopStates r hr s hs)

/-! ## Connectedness of the outline -/

/-- The bounds in `inInt64` are `-2^63` and `2^63`. -/
theorem inInt64_iff (v : Int) : inInt64 v ↔ -2 ^ 63 ≤ v ∧ v < 2 ^ 63 := by
  unfold inInt64
  norm_num

/-- Wraparound at the top of the range, and of the square of `2^32`. -/
theorem wrap64_examples :
    wrap64 9223372036854775807 = 9223372036854775807 ∧
    wrap64 (9223372036854775807 + 1) = -9223372036854775808 ∧
    wrap64 (4294967296 * 4294967296) = 0 := by
  unfold wrap64
  decide

theorem wrap64_eq {v : Int} (h : inInt64 v) : wrap64 v = v := by
  unfold inInt64 at h
  unfold wrap64
  omega

/-- At a state where the body runs, for a radius below `2^31`, every value
the body computes fits in 64 bits. -/
theorem intermediates_inInt64 (r : Int) (hr : r < 2147483648) (s : LoopState)
    (ht : Tracks r s) (hc : s.x ≤ s.y) : ∀ v ∈ intermediates (r * r) s, inInt64 v := by
  obtain ⟨h0, hx, hy, hyr, -, -, hup, hlo⟩ := ht
  have hxx : s.x * s.x ≤ 2147483647 * 2147483647 :=
    mul_self_le_mul_self h0 (by omega)
  have hyy : s.y * s.y ≤ 2147483647 * 2147483647 :=
    mul_self_le_mul_self (by omega) (by omega)
  have hrr : r * r ≤ 2147483647 * 2147483647 :=
    mul_self_le_mul_self (by omega) (by omega)
  have hxx0 := mul_self_nonneg s.x
  have hyy0 := mul_self_nonneg s.y
  have hrr0 := mul_self_nonneg r
  intro v hv
  simp only [intermediates, List.mem_cons, List.mem_singleton, List.mem_nil_iff, or_false] at hv
  unfold inInt64
  rw [hx, hy] at hv
  rcases hv with rfl | rfl | rfl | rfl | rfl | rfl | rfl | rfl | rfl | rfl | rfl | rfl | rfl |
    rfl | rfl | rfl | rfl | rfl | rfl | rfl <;> omega

theorem body64_eq_body (rsq : Int) (s : LoopState)
    (h : ∀ v ∈ intermediates rsq s, inInt64 v) : body64 rsq s = body rsq s := by
  have hm : ∀ v, v ∈ intermediates rsq s → wrap64 v = v := fun v hv => wrap64_eq (h v hv)
  unfold body64 body
  dsimp only
  rw [hm (2 * s.x) (by simp [intermediates]), hm (s.xsq + 2 * s.x) (by simp [intermediates]),
    hm (s.xsq + 2 * s.x + 1) (by simp [intermediates]),
    hm (s.x + 1) (by simp [intermediates]),
    hm (2 * s.y) (by simp [intermediates]), hm (s.ysq - 2 * s.y) (by simp [intermediates]),
    hm (s.ysq - 2 * s.y + 1) (by simp [intermediates]),
    hm (s.xsq + 2 * s.x + 1 + s.ysq) (by simp [intermediates]),
    hm (s.xsq + 2 * s.x + 1 + (s.ysq - 2 * s.y + 1)) (by simp [intermediates]),
    hm (s.xsq + 2 * s.x + 1 + s.ysq - rsq) (by simp [intermediates]),
    hm (rsq - (s.xsq + 2 * s.x + 1 + (s.ysq - 2 * s.y + 1))) (by simp [intermediates]),
    hm (s.y - 1) (by simp [intermediates])]

theorem putPixels64_eq_putPixels (rsq : Int) (s : LoopState)
    (h : ∀ v ∈ intermediates rsq s, inInt64 v) : putPixels64 s.x s.y = putPixels s.x s.y := by
  have hm : ∀ v, v ∈ intermediates rsq s → wrap64 v = v := fun v hv => wrap64_eq (h v hv)
  unfold putPixels64 putPixels
  rw [hm (-s.x) (by simp [intermediates]), hm (-s.y) (by simp [intermediates])]

/-- With enough fuel the 64-bit loop makes the calls of the unbounded loop. -/
theorem drawCircleInt64Loop_eq (r : Int) (hr : r < 2147483648) (fuel : Nat) (s : LoopState)
    (ht : Tracks r s) (hf : (loopStates (r * r) s).length ≤ fuel) :
    drawCircleInt64Loop (r * r) fuel s = some (drawCircleIntLoop (r * r) s) := by
  induction fuel generalizing s with
  | zero =>
    have hc : ¬ s.x ≤ s.y := by
      intro hc
      rw [loopStates_of_le _ _ hc] at hf
      simp at hf
    rw [drawCircleInt64Loop, if_neg hc, drawCircleIntLoop_of_not_le _ _ hc]
  | succ k ih =>
    by_cases hc : s.x ≤ s.y
    · have hi := intermediates_inInt64 r hr s ht hc
      rw [loopStates_of_le _ _ hc, List.length_cons] at hf
      rw [drawCircleInt64Loop, if_pos hc, body64_eq_body _ _ hi, putPixels64_eq_putPixels _ _ hi,
        ih _ (tracks_body r s ht hc) (by omega), drawCircleIntLoop_of_le _ _ hc]
      rfl
    · rw [drawCircleInt64Loop, if_neg hc, drawCircleIntLoop_of_not_le _ _ hc]

/-! ## The claims about the point generator -/

/-- For the run with unbounded integers: for every radius `r ≥ 0`, a point is
emitted by `drawCircleInt r` if and only if it is one of the eight reflections
of `(x, y)` for some `x` from `0` to `r`, with `y = round(sqrt(r² - x²))`
computed in the real numbers; and this is the point set of `drawCircleSqrt r`.
-/
theorem drawCircleInt_eq_oracle (r : Int) (hr : 0 ≤ r) (p : Int × Int) :
    (p ∈ drawCircleInt r ↔
      ∃ x : Int, 0 ≤ x ∧ x ≤ r ∧
        p ∈ putPixels x (round (Real.sqrt (((r * r - x * x : Int) : ℝ))))) ∧
    (p ∈ drawCircleInt r ↔ p ∈ drawCircleSqrt r) := by
  have h := mem_drawCircleInt_iff_mem_drawCircleSqrt r hr p
  refine ⟨?_, h⟩
  rw [h, mem_drawCircleSqrt r]
  constructor
  · rintro ⟨x, hx, hxr, hp⟩
    refine ⟨x, hx, hxr, ?_⟩
    rw [← roundSqrt_eq_round _ (by nlinarith)]
    exact hp
  · rintro ⟨x, hx, hxr, hp⟩
    refine ⟨x, hx, hxr, ?_⟩
    rw [roundSqrt_eq_round _ (by nlinarith)]
    exact hp

/-- C5. `drawCircleInt(0)` makes exactly eight `putPixel` calls, all of them
with `(0, 0)`; so the point set for radius 0 is `{(0, 0)}`. -/
theorem drawCircleInt_zero :
    drawCircleInt 0 = [(0, 0), (0, 0), (0, 0), (0, 0), (0, 0), (0, 0), (0, 0), (0, 0)] ∧
    (drawCircleInt 0).length = 8 ∧
    ∀ p : Int × Int, p ∈ drawCircleInt 0 ↔ p = (0, 0) := by
  have h : drawCircleInt 0 =
      [(0, 0), (0, 0), (0, 0), (0, 0), (0, 0), (0, 0), (0, 0), (0, 0)] := by
    simp [drawCircleInt, drawCircleIntLoop, initState, body, putPixels]
  refine ⟨h, by rw [h]; rfl, ?_⟩
  intro p
  rw [h]
  simp

/-- C4. `drawCircleText(3)` writes exactly the 56 bytes of seven rows of
seven characters, each followed by a newline, that the test `TestText`
expects. -/
theorem drawCircleText_three :
    drawCircleText 3 =
      some "  ###  \n #   # \n#     #\n#     #\n#     #\n #   # \n  ###  \n".toList ∧
    "  ###  \n #   # \n#     #\n#     #\n#     #\n #   # \n  ###  \n".toList.length = 56 :=
  ⟨drawCircleText_three_eval, by decide⟩

/-- C6. `drawCircleText(0)` writes exactly the two bytes `'#'`, `'\n'`. -/
theorem drawCircleText_zero :
    drawCircleText 0 = some "#\n".toList ∧ "#\n".toList = ['#', '\n'] :=
  ⟨drawCircleText_zero_eval, rfl⟩

/-! ## Further claims about the point generator -/

/-- For the run with unbounded integers: for every radius `r ≥ 0` the points
visited by the loop are exactly `(0, Y(0)), (1, Y(1)), ..., (k, Y(k))` with
`Y(x) = roundSqrt (r² - x²)`, where `k` is the largest `x` in `[0, r]` with
`x ≤ Y(x)`. -/
theorem visitedPoints_eq_oracle_columns (r : Int) (hr : 0 ≤ r) :
    ∃ k : Nat,
      visitedPoints r =
        (List.range (k + 1)).map (fun x : Nat => ((x : Int), roundSqrt (r * r - (x : Int) * x))) ∧
      (k : Int) ≤ r ∧ (k : Int) ≤ roundSqrt (r * r - (k : Int) * k) ∧
      (∀ x : Int, 0 ≤ x → x ≤ r → x ≤ roundSqrt (r * r - x * x) → x ≤ k) ∧
      (∀ x : Int, 0 ≤ x → x ≤ r →
        roundSqrt (r * r - x * x) = round (Real.sqrt (((r * r - x * x : Int)) : ℝ))) ∧
      (∀ x y : Int, 1 ≤ y →
        (roundSqrt (r * r - x * x) = y ↔
          y * y - y < r * r - x * x ∧ r * r - x * x ≤ y * y + y)) := by
  have hpos := loopStates_ne_nil r hr
  have h0 := tracks_initState r hr
  set n := (loopStates (r * r) (initState r)).length with hn
  have hlast := visitedPoints_getElem? r hr (n - 1) (by omega)
  have hlastmem : ∃ s ∈ loopStates (r * r) (initState r),
      s.x = ((n - 1 : Nat) : Int) ∧ s.y = roundSqrt (r * r - ((n - 1 : Nat) : Int) * (n - 1 : Nat)) := by
    have hm := List.getElem?_mem hlast
    unfold visitedPoints at hm
    rw [List.mem_map] at hm
    obtain ⟨s, hs, he⟩ := hm
    exact ⟨s, hs, (Prod.mk.inj he).1, (Prod.mk.inj he).2⟩
  obtain ⟨hk0, hk1, -⟩ := (visited_iff r hr _ _).1 hlastmem
  refine ⟨n - 1, ?_, ?_, hk1, ?_, ?_, ?_⟩
  · apply List.ext_getElem?
    intro m
    by_cases hm : m < n
    · rw [visitedPoints_getElem? r hr m hm, List.getElem?_map,
        List.getElem?_range (by omega)]
      rfl
    · rw [List.getElem?_eq_none (by simp [visitedPoints]; omega),
        List.getElem?_eq_none (by simp; omega)]
  · obtain ⟨s, hs, hsx, hsy⟩ := hlastmem
    obtain ⟨ht, hc⟩ := tracks_of_mem_loopStates r _ h0 s hs
    have := ht.y_le
    omega
  · intro x hx hxr hxy
    obtain ⟨s, hs, hsx, -⟩ := (visited_iff r hr x _).2 ⟨hx, hxy, rfl⟩
    obtain ⟨m, hm, rfl⟩ := (mem_loopStates_iff _ _ _).1 hs
    rw [iterate_body_x] at hsx
    simp only [initState] at hsx
    omega
  · intro x hx hxr
    exact roundSqrt_eq_round _ (by nlinarith)
  · intro x y hy
    rw [roundSqrt_eq_iff _ _ (by omega)]
    constructor
    · rintro ⟨h1, h2⟩
      exact ⟨by omega, h1⟩
    · rintro ⟨h1, h2⟩
      exact ⟨h2, Or.inr h1⟩

/-- At radius 0 the loop runs once, in the state `x = 0`, `y = 0`, and no
further iteration follows.  After `x` is advanced to 1 the body leaves
`y = -1`, although the candidate with the smaller squared-distance error would
be `y = 0` (errors 1 and 2): the signed test of the body is the comparison of
the absolute errors only for `y ≥ 1`.  The value is never used. -/
theorem decision_not_nearest_at_zero :
    loopStates (0 * 0) (initState 0) = [initState 0] ∧
    (initState 0).x = 0 ∧ (initState 0).y = 0 ∧
    (body (0 * 0) (initState 0)).y = -1 ∧
    nearestCandidate 0 ((initState 0).x + 1) (initState 0).y = 0 ∧
    |(1 : Int) * 1 + 0 * 0 - 0 * 0| = 1 ∧ |(1 : Int) * 1 + (0 - 1) * (0 - 1) - 0 * 0| = 2 := by
  refine ⟨?_, rfl, rfl, ?_, ?_, ?_, ?_⟩
  · simp [loopStates, initState, body]
  · decide
  · decide
  · decide
  · decide

/-- For the run with unbounded integers: for every radius `r ≥ 0` and every
point `(x, y)` emitted by `drawCircleInt r`,
`|x² + y² - r²| ≤ max(|x|, |y|)`. -/
theorem emitted_error_le (r : Int) (hr : 0 ≤ r) (x y : Int) (h : (x, y) ∈ drawCircleInt r) :
    |x * x + y * y - r * r| ≤ max |x| |y| := by
  obtain ⟨s, hs, hp⟩ := (mem_drawCircleInt r (x, y)).1 h
  obtain ⟨ht, hc⟩ := tracks_of_mem_loopStates r _ (tracks_initState r hr) s hs
  have h0 := ht.x_nonneg
  have hup := ht.upper
  have hlo := ht.lower hc
  rw [mem_putPixels] at hp
  simp only at hp
  have hsq : x * x + y * y = s.x * s.x + s.y * s.y := by
    rcases hp with ⟨h1 | h1, h2 | h2⟩ | ⟨h1 | h1, h2 | h2⟩ <;> rw [h1, h2] <;> ring
  have hmax : max |x| |y| = s.y := by
    rcases hp with ⟨h1 | h1, h2 | h2⟩ | ⟨h1 | h1, h2 | h2⟩ <;> rw [h1, h2] <;>
      simp only [abs_neg, abs_of_nonneg h0, abs_of_nonneg (le_trans h0 hc)] <;>
      first | exact max_eq_right hc | exact max_eq_left hc
  rw [hsq, hmax, abs_le]
  have hrr := mul_self_nonneg r
  rcases hlo with hlo | hlo
  · have hx0 : s.x = 0 := by omega
    rw [hx0, hlo] at hup ⊢
    constructor <;> omega
  · constructor <;> omega

/-- C17. For every radius `r` with `0 ≤ r < 2^31`, every value computed by
the loop body of `drawCircleInt(r)` at every iteration (among them `rsq`,
`xsq`, `ysq`, `y1sq`, `a`, `b`, `a - rsq`, `rsq - b`, `2*x + 1`, `2*y`) lies
in the signed 64-bit range, and the function run with 64-bit wraparound
arithmetic returns, for any fuel of at least `r + 1` iterations, the same
sequence of `putPixel` calls as the function run with unbounded integers. -/
theorem wraparound_agrees (r : Int) (hr0 : 0 ≤ r) (hr : r < 2 ^ 31) :
    (∀ s ∈ loopStates (r * r) (initState r), ∀ v ∈ intermediates (r * r) s, inInt64 v) ∧
    (∀ fuel : Nat, r + 1 ≤ fuel → drawCircleInt64 fuel r = some (drawCircleInt r)) := by
  have hr' : r < 2147483648 := by norm_num at hr; exact hr
  have h0 := tracks_initState r hr0
  refine ⟨?_, ?_⟩
  · intro s hs
    obtain ⟨ht, hc⟩ := tracks_of_mem_loopStates r _ h0 s hs
    exact intermediates_inInt64 r hr' s ht hc
  · intro fuel hf
    have hrr : inInt64 (r * r) := by
      have : r * r ≤ 2147483647 * 2147483647 := mul_self_le_mul_self hr0 (by omega)
      have := mul_self_nonneg r
      unfold inInt64
      omega
    unfold drawCircleInt64 drawCircleInt
    rw [wrap64_eq hrr]
    exact drawCircleInt64Loop_eq r hr' fuel (initState r) h0 (by
      have := length_loopStates_le r hr0
      omega)

/-- C17 at radius 3. -/
theorem wraparound_agrees_witness :
    (0 : Int) ≤ 3 ∧ (3 : Int) < 2 ^ 31 ∧
    ((∀ s ∈ loopStates (3 * 3) (initState 3), ∀ v ∈ intermediates (3 * 3) s, inInt64 v) ∧
    (∀ fuel : Nat, (3 : Int) + 1 ≤ fuel → drawCircleInt64 fuel 3 = some (drawCircleInt 3))) :=
  ⟨by decide, by norm_num, wraparound_agrees 3 (by decide) (by norm_num)⟩

/-! ## The 64-bit run agrees with the unbounded run below `2^61` -/

/-- At a state where the body runs, the squared-distance error of the point
is at most `y` in absolute value. -/
theorem Tracks.err_bounds {r : Int} {s : LoopState} (ht : Tracks r s) (hc : s.x ≤ s.y) :
    -s.y ≤ s.x * s.x + s.y * s.y - r * r ∧ s.x * s.x + s.y * s.y - r * r ≤ s.y := by
  have h0 := ht.x_nonneg
  have hup := ht.upper
  have hrr := mul_self_nonneg r
  rcases ht.lower hc with hlo | hlo
  · have hx0 : s.x = 0 := by omega
    rw [hx0, hlo] at hup ⊢
    constructor <;> omega
  · constructor <;> omega

/-- Wrapping the left summand first does not change the wrapped sum. -/
theorem wrap64_add_left (a b : Int) : wrap64 (wrap64 a + b) = wrap64 (a + b) := by
  unfold wrap64; omega

/-- Wrapping the right summand first does not change the wrapped sum. -/
theorem wrap64_add_right (a b : Int) : wrap64 (a + wrap64 b) = wrap64 (a + b) := by
  unfold wrap64; omega

/-- Wrapping the minuend first does not change the wrapped difference. -/
theorem wrap64_sub_left (a b : Int) : wrap64 (wrap64 a - b) = wrap64 (a - b) := by
  unfold wrap64; omega

/-- Wrapping the subtrahend first does not change the wrapped difference. -/
theorem wrap64_sub_right (a b : Int) : wrap64 (a - wrap64 b) = wrap64 (a - b) := by
  unfold wrap64; omega

/-- One execution of the 64-bit body on the 64-bit image of a state is the
64-bit image of the unbounded body, as long as the two compared errors fit in
64 bits; the squares themselves may have wrapped. -/
theorem body64_wrapState (r : Int) (hr : r < 2305843009213693952) (s : LoopState)
    (ht : Tracks r s) (hc : s.x ≤ s.y) :
    body64 (wrap64 (r * r)) (wrapState s) = wrapState (body (r * r) s) := by
  obtain ⟨he1, he2⟩ := ht.err_bounds hc
  have h0 := ht.x_nonneg
  have hyr := ht.y_le
  have hx := ht.xsq_eq
  have hy := ht.ysq_eq
  unfold body64 body wrapState
  dsimp only
  rw [hx, hy]
  generalize s.x * s.x = X at *
  generalize s.y * s.y = Y at *
  generalize r * r = R at *
  simp only [wrap64_add_left, wrap64_add_right, wrap64_sub_left, wrap64_sub_right]
  have ha : wrap64 (X + 2 * s.x + 1 + Y - R) = X + 2 * s.x + 1 + Y - R :=
    wrap64_eq (by unfold inInt64; omega)
  have hb : wrap64 (R - (X + 2 * s.x + 1 + (Y - 2 * s.y + 1))) =
      R - (X + 2 * s.x + 1 + (Y - 2 * s.y + 1)) :=
    wrap64_eq (by unfold inInt64; omega)
  have hx1 : wrap64 (s.x + 1) = s.x + 1 := wrap64_eq (by unfold inInt64; omega)
  have hy1 : wrap64 (s.y - 1) = s.y - 1 := wrap64_eq (by unfold inInt64; omega)
  rw [ha, hb, hx1, hy1]
  split <;> rfl

/-- The initial state of the 64-bit run is the 64-bit image of the initial
state of the unbounded run. -/
theorem initState64_eq (r : Int) : initState64 r = wrapState (initState r) := by
  unfold initState64 wrapState initState
  simp [wrap64]

/-- When the negations of `x` and `y` fit in 64 bits, the eight calls of the
64-bit run are those of the unbounded run. -/
theorem putPixels64_eq_of_inInt64 (x y : Int) (hx : inInt64 (-x)) (hy : inInt64 (-y)) :
    putPixels64 x y = putPixels x y := by
  unfold putPixels64 putPixels
  rw [wrap64_eq hx, wrap64_eq hy]

/-- Below `2^61` the visited states of the 64-bit run are the 64-bit images of
the visited states of the unbounded run, once the fuel covers all of them. -/
theorem loopStates64_wrapState (r : Int) (hr : r < 2305843009213693952) (fuel : Nat)
    (s : LoopState) (ht : Tracks r s) (hf : (loopStates (r * r) s).length ≤ fuel) :
    loopStates64 (wrap64 (r * r)) fuel (wrapState s) =
      (loopStates (r * r) s).map wrapState := by
  induction fuel generalizing s with
  | zero =>
    have hnil : loopStates (r * r) s = [] := List.eq_nil_of_length_eq_zero (by omega)
    rw [hnil]
    rfl
  | succ k ih =>
    by_cases hc : s.x ≤ s.y
    · rw [loopStates_of_le _ _ hc, List.length_cons] at hf
      rw [loopStates_of_le _ _ hc, loopStates64, if_pos (show (wrapState s).x ≤ (wrapState s).y from hc),
        body64_wrapState r hr s ht hc, ih _ (tracks_body r s ht hc) (by omega)]
      rfl
    · rw [loopStates_of_not_le _ _ hc, loopStates64,
        if_neg (show ¬ (wrapState s).x ≤ (wrapState s).y from hc)]
      rfl

/-- Whatever the radius, when the 64-bit loop finishes within the fuel its
calls are those of the visited states. -/
theorem drawCircleInt64Loop_eq_some (rsq : Int) (fuel : Nat) (s : LoopState)
    (out : List (Int × Int)) (h : drawCircleInt64Loop rsq fuel s = some out) :
    out = (loopStates64 rsq fuel s).flatMap (fun t => putPixels64 t.x t.y) := by
  induction fuel generalizing s out with
  | zero =>
    unfold drawCircleInt64Loop at h
    split at h
    · simp at h
    · simp only [Option.some.injEq] at h
      rw [← h]
      rfl
  | succ k ih =>
    unfold drawCircleInt64Loop at h
    split at h
    · rename_i hc
      rw [Option.map_eq_some'] at h
      obtain ⟨l, hl, rfl⟩ := h
      rw [loopStates64, if_pos hc, List.flatMap_cons, ← ih _ _ hl]
    · rename_i hc
      simp only [Option.some.injEq] at h
      rw [← h, loopStates64, if_neg hc]
      rfl

/-- The 64-bit loop finishes within the fuel exactly when the loop condition
fails after at most `fuel` iterations; then it returns the calls of the
visited states. -/
theorem drawCircleInt64Loop_of_length_lt (rsq : Int) (fuel : Nat) (s : LoopState)
    (h : (loopStates64 rsq fuel s).length < fuel ∨
      ((loopStates64 rsq (fuel + 1) s).length ≤ fuel)) :
    drawCircleInt64Loop rsq fuel s =
      some ((loopStates64 rsq fuel s).flatMap (fun t => putPixels64 t.x t.y)) := by
  induction fuel generalizing s with
  | zero =>
    have hc : ¬ s.x ≤ s.y := by
      intro hc
      rcases h with h | h
      · simp at h
      · rw [loopStates64, if_pos hc] at h
        simp at h
    rw [drawCircleInt64Loop, if_neg hc]
    rfl
  | succ k ih =>
    by_cases hc : s.x ≤ s.y
    · rw [drawCircleInt64Loop, if_pos hc, loopStates64, if_pos hc, List.flatMap_cons]
      have := ih (body64 rsq s) (by
        rcases h with h | h
        · left
          rw [loopStates64, if_pos hc, List.length_cons] at h
          omega
        · right
          rw [loopStates64, if_pos hc, List.length_cons] at h
          omega)
      rw [this]
      rfl
    · rw [drawCircleInt64Loop, if_neg hc, loopStates64, if_neg hc]
      rfl

/-- Whatever the radius, when the 64-bit run returns, its calls are those of
the states visited within the fuel. -/
theorem drawCircleInt64_eq_some (fuel : Nat) (r : Int) (out : List (Int × Int))
    (h : drawCircleInt64 fuel r = some out) : out = emitted64 fuel r :=
  drawCircleInt64Loop_eq_some _ _ _ _ h

/-- The visited states of the first `k` iterations are an initial segment of
those of the first `k + j` iterations. -/
theorem loopStates64_initial (rsq : Int) (k j : Nat) (s : LoopState) :
    loopStates64 rsq k s <+: loopStates64 rsq (k + j) s := by
  induction k generalizing s with
  | zero => exact List.nil_prefix
  | succ n ih =>
    rw [Nat.succ_add]
    by_cases hc : s.x ≤ s.y
    · rw [loopStates64, if_pos hc, loopStates64, if_pos hc]
      exact (List.prefix_cons_inj s).2 (ih _)
    · rw [loopStates64, if_neg hc]
      exact List.nil_prefix

/-- The calls of the first `k` iterations are among those of the first `fuel`
iterations, for `k ≤ fuel`. -/
theorem emitted64_subset (k fuel : Nat) (r : Int) (hk : k ≤ fuel) :
    emitted64 k r ⊆ emitted64 fuel r := by
  obtain ⟨j, rfl⟩ := Nat.exists_eq_add_of_le hk
  intro p hp
  unfold emitted64 at hp ⊢
  rw [List.mem_flatMap] at hp ⊢
  obtain ⟨s, hs, hps⟩ := hp
  exact ⟨s, (loopStates64_initial _ k j _).subset hs, hps⟩

/-- Below `2^61`, with fuel for `r + 1` iterations, the 64-bit run visits the
points of the unbounded run and makes the same calls. -/
theorem run64_eq (r : Int) (hr0 : 0 ≤ r) (hr : r < 2305843009213693952) (fuel : Nat)
    (hf : r + 1 ≤ fuel) :
    visitedPoints64 fuel r = visitedPoints r ∧
    emitted64 fuel r = drawCircleInt r ∧
    drawCircleInt64 fuel r = some (drawCircleInt r) := by
  have h0 := tracks_initState r hr0
  have hlen := length_loopStates_le r hr0
  have hls := loopStates64_wrapState r hr fuel (initState r) h0 (by omega)
  rw [← initState64_eq] at hls
  have hpix : ∀ s ∈ loopStates (r * r) (initState r),
      putPixels64 (wrapState s).x (wrapState s).y = putPixels s.x s.y := by
    intro s hs
    obtain ⟨ht, hc⟩ := tracks_of_mem_loopStates r _ h0 s hs
    have := ht.x_nonneg
    have := ht.y_le
    exact putPixels64_eq_of_inInt64 _ _ (by unfold inInt64; simp only [wrapState]; omega)
      (by unfold inInt64; simp only [wrapState]; omega)
  have hv : visitedPoints64 fuel r = visitedPoints r := by
    unfold visitedPoints64 visitedPoints
    rw [hls, List.map_map]
    rfl
  have he : emitted64 fuel r = drawCircleInt r := by
    unfold emitted64 drawCircleInt
    rw [hls, drawCircleIntLoop_eq_flatMap, List.flatMap_map]
    exact List.flatMap_congr hpix
  refine ⟨hv, he, ?_⟩
  have hfin := drawCircleInt64Loop_of_length_lt (wrap64 (r * r)) fuel (initState64 r) (by
    right
    have h1 := loopStates64_wrapState r hr (fuel + 1) (initState r) h0 (by omega)
    rw [← initState64_eq] at h1
    rw [h1, List.length_map]
    omega)
  have : drawCircleInt64 fuel r =
      some ((loopStates64 (wrap64 (r * r)) fuel (initState64 r)).flatMap
        (fun t => putPixels64 t.x t.y)) := hfin
  rw [this]
  exact congrArg some he

/-! ## The 64-bit run at `r = 2^62 + 1` -/

/-- At `r = 2^62 + 1 = 4611686018427387905` the square `r * r` wraps to
`-2^63 + 1`; in the first iteration `rsq - b`, whose exact value is `2^63`,
wraps to `-2^63`, so the 64-bit body decrements `y` although the exact
comparison keeps it: the second visited state is `(1, 2^62)`. -/
theorem loopStates64_big :
    loopStates64 (wrap64 (4611686018427387905 * 4611686018427387905)) 2
        (initState64 4611686018427387905) =
      [{ x := 0, y := 4611686018427387905, xsq := 0, ysq := -9223372036854775807 },
       { x := 1, y := 4611686018427387904, xsq := 1, ysq := 0 }] := by
  decide

/-- At `r = 2^62 + 1` the first execution of the loop body with unbounded
integers keeps `y = r`. -/
theorem body_big :
    (body (4611686018427387905 * 4611686018427387905) (initState 4611686018427387905)).y =
      4611686018427387905 := by
  decide

/-- At `r = 2^62 + 1` the first two points visited by the 64-bit run. -/
theorem visitedPoints64_big :
    visitedPoints64 2 4611686018427387905 =
      [(0, 4611686018427387905), (1, 4611686018427387904)] := by
  unfold visitedPoints64
  rw [loopStates64_big]
  rfl

/-- At `r = 2^62 + 1` the 64-bit run calls `putPixel(1, 2^62)` in its second
iteration. -/
theorem mem_emitted64_big :
    ((1, 4611686018427387904) : Int × Int) ∈ emitted64 2 4611686018427387905 := by
  unfold emitted64
  rw [loopStates64_big]
  decide

/-- The rounded square root of `r² - 1` at `r = 2^62 + 1` is `r`. -/
theorem roundSqrt_big_one :
    roundSqrt (4611686018427387905 * 4611686018427387905 - 1 * 1) = 4611686018427387905 := by
  rw [roundSqrt_eq_iff _ _ (by norm_num)]
  norm_num

/-- The point `(1, 2^62)` is not in the oracle set of radius `2^62 + 1`. -/
theorem not_mem_oracle_big (x : Int) (hx0 : 0 ≤ x) (hx : x ≤ 4611686018427387905) :
    ((1, 4611686018427387904) : Int × Int) ∉
      putPixels x (roundSqrt (4611686018427387905 * 4611686018427387905 - x * x)) := by
  intro h
  rw [mem_putPixels] at h
  have hY := roundSqrt_nonneg (4611686018427387905 * 4611686018427387905 - x * x)
  simp only at h
  rcases h with ⟨h1, h2⟩ | ⟨h1, h2⟩
  · have hx1 : x = 1 := by omega
    subst hx1
    rw [roundSqrt_big_one] at h2
    omega
  · have hx2 : x = 4611686018427387904 := by omega
    subst hx2
    have hle : roundSqrt (4611686018427387905 * 4611686018427387905 -
        4611686018427387904 * 4611686018427387904) ≤ 1 := by omega
    rw [roundSqrt_le_iff _ _ (by norm_num)] at hle
    norm_num at hle

/-- Whenever the 64-bit run at `r = 2^62 + 1` returns, the point `(1, 2^62)`
is among its calls (it is made in the second iteration). -/
theorem mem_of_drawCircleInt64_big (fuel : Nat) (out : List (Int × Int))
    (h : drawCircleInt64 fuel 4611686018427387905 = some out) :
    ((1, 4611686018427387904) : Int × Int) ∈ out := by
  rcases fuel with _ | _ | k
  · have : drawCircleInt64 0 4611686018427387905 = none := by decide
    rw [this] at h
    simp at h
  · have : drawCircleInt64 1 4611686018427387905 = none := by decide
    rw [this] at h
    simp at h
  · rw [drawCircleInt64_eq_some _ _ _ h]
    exact emitted64_subset 2 (k + 1 + 1) _ (by omega) mem_emitted64_big

/-- At `r = 2^62 + 1` the second point visited by the 64-bit run is
`(1, 2^62)`, for any fuel of at least two iterations. -/
theorem getElem?_visitedPoints64_big (fuel : Nat) (hf : 2 ≤ fuel) :
    (visitedPoints64 fuel 4611686018427387905)[1]? = some (1, 4611686018427387904) := by
  obtain ⟨j, rfl⟩ := Nat.exists_eq_add_of_le hf
  obtain ⟨t, ht⟩ := loopStates64_initial
    (wrap64 (4611686018427387905 * 4611686018427387905)) 2 j (initState64 4611686018427387905)
  unfold visitedPoints64
  rw [← ht, loopStates64_big]
  simp

/-- A state whose successor is still in the loop has `y ≥ 1`. -/
theorem one_le_y_of_next (rsq : Int) (s : LoopState) (h0 : 0 ≤ s.x)
    (hn : (body rsq s).x ≤ (body rsq s).y) : 1 ≤ s.y := by
  have h1 := body_x rsq s
  have h2 := body_y_le rsq s
  omega

/-- Every state visited by the 64-bit run below `2^61` is the 64-bit image of
a state visited by the unbounded run. -/
theorem mem_loopStates64 (r : Int) (hr0 : 0 ≤ r) (hr : r < 2305843009213693952) (fuel : Nat)
    (t : LoopState) (ht : t ∈ loopStates64 (wrap64 (r * r)) fuel (initState64 r)) :
    ∃ s ∈ loopStates (r * r) (initState r), t = wrapState s := by
  have h0 := tracks_initState r hr0
  have hlen := length_loopStates_le r hr0
  have hpre := loopStates64_initial (wrap64 (r * r)) fuel (r + 1).toNat (initState64 r)
  have hls := loopStates64_wrapState r hr (fuel + (r + 1).toNat) (initState r) h0 (by omega)
  rw [← initState64_eq] at hls
  have := hpre.subset ht
  rw [hls, List.mem_map] at this
  obtain ⟨s, hs, rfl⟩ := this
  exact ⟨s, hs, rfl⟩

/-! ## The claims about the point generator that depend on the integer width -/

/-- C1 (refuted as stated). At `r = 2^62 + 1` the program, run with Go's
64-bit integers, calls `putPixel(1, 2^62)` in its second loop iteration, so
that point is in whatever it returns; it is not among the reflections of
`(x, round(sqrt(r² - x²)))` for `0 ≤ x ≤ r`, nor in the point set of
`drawCircleSqrt(r)` evaluated exactly. -/
theorem oracle_fails_big :
    (0 : Int) ≤ 4611686018427387905 ∧
    ((1, 4611686018427387904) : Int × Int) ∈ emitted64 2 4611686018427387905 ∧
    (∀ (fuel : Nat) (out : List (Int × Int)),
      drawCircleInt64 fuel 4611686018427387905 = some out →
        ((1, 4611686018427387904) : Int × Int) ∈ out) ∧
    (¬ ∃ x : Int, 0 ≤ x ∧ x ≤ 4611686018427387905 ∧
      ((1, 4611686018427387904) : Int × Int) ∈
        putPixels x (round (Real.sqrt
          (((4611686018427387905 * 4611686018427387905 - x * x : Int)) : ℝ)))) ∧
    ((1, 4611686018427387904) : Int × Int) ∉ drawCircleSqrt 4611686018427387905 := by
  refine ⟨by decide, mem_emitted64_big, mem_of_drawCircleInt64_big, ?_, ?_⟩
  · rintro ⟨x, hx0, hx, hp⟩
    rw [← roundSqrt_eq_round _ (by nlinarith)] at hp
    exact not_mem_oracle_big x hx0 hx hp
  · rw [mem_drawCircleSqrt]
    rintro ⟨x, hx0, hx, hp⟩
    exact not_mem_oracle_big x hx0 hx hp

/-- C1 (amended). For every radius `r` with `0 ≤ r < 2^61`, the program run
with 64-bit integers returns (given fuel for at least `r + 1` iterations), and
a point is among its calls if and only if it is one of the eight reflections
of `(x, y)` for some `x` from `0` to `r` with `y = round(sqrt(r² - x²))`
computed in the real numbers; this is the point set of `drawCircleSqrt(r)`
evaluated exactly.  Point sets are compared by membership. -/
theorem drawCircleInt64_eq_oracle (r : Int) (hr0 : 0 ≤ r) (hr : r < 2 ^ 61) (fuel : Nat)
    (hf : r + 1 ≤ fuel) (p : Int × Int) :
    ∃ out : List (Int × Int), drawCircleInt64 fuel r = some out ∧
      (p ∈ out ↔
        ∃ x : Int, 0 ≤ x ∧ x ≤ r ∧
          p ∈ putPixels x (round (Real.sqrt (((r * r - x * x : Int)) : ℝ)))) ∧
      (p ∈ out ↔ p ∈ drawCircleSqrt r) := by
  have hr' : r < 2305843009213693952 := by norm_num at hr; exact hr
  refine ⟨drawCircleInt r, (run64_eq r hr0 hr' fuel hf).2.2, ?_, ?_⟩
  · exact (drawCircleInt_eq_oracle r hr0 p).1
  · exact mem_drawCircleInt_iff_mem_drawCircleSqrt r hr0 p

/-- The amended C1 at radius 3, four iterations of fuel and the point
`(2, -2)`. -/
theorem drawCircleInt64_eq_oracle_witness :
    (0 : Int) ≤ 3 ∧ (3 : Int) < 2 ^ 61 ∧ (3 : Int) + 1 ≤ (4 : Nat) ∧
    ∃ out : List (Int × Int), drawCircleInt64 4 3 = some out ∧
      (((2, -2) : Int × Int) ∈ out ↔
        ∃ x : Int, 0 ≤ x ∧ x ≤ 3 ∧
          ((2, -2) : Int × Int) ∈
            putPixels x (round (Real.sqrt (((3 * 3 - x * x : Int)) : ℝ)))) ∧
      (((2, -2) : Int × Int) ∈ out ↔ ((2, -2) : Int × Int) ∈ drawCircleSqrt 3) :=
  ⟨by decide, by norm_num, by decide,
    drawCircleInt64_eq_oracle 3 (by decide) (by norm_num) 4 (by decide) (2, -2)⟩

/-- C12 (refuted as stated). At `r = 2^62 + 1` the program, run with Go's
64-bit integers, visits `(0, r)` and then `(1, 2^62)`, for any fuel of at
least two iterations; but `Y(1) = round(sqrt(r² - 1)) = r = 2^62 + 1`. -/
theorem visited_not_oracle_big :
    (0 : Int) ≤ 4611686018427387905 ∧
    visitedPoints64 2 4611686018427387905 =
      [(0, 4611686018427387905), (1, 4611686018427387904)] ∧
    (∀ fuel : Nat, 2 ≤ fuel →
      (visitedPoints64 fuel 4611686018427387905)[1]? = some (1, 4611686018427387904)) ∧
    roundSqrt (4611686018427387905 * 4611686018427387905 - 1 * 1) = 4611686018427387905 ∧
    round (Real.sqrt (((4611686018427387905 * 4611686018427387905 - 1 * 1 : Int)) : ℝ)) =
      4611686018427387905 ∧
    (4611686018427387904 : Int) ≠ 4611686018427387905 := by
  refine ⟨by decide, visitedPoints64_big, getElem?_visitedPoints64_big, roundSqrt_big_one,
    ?_, by decide⟩
  rw [← roundSqrt_eq_round _ (by norm_num)]
  exact roundSqrt_big_one

/-- C12 (amended). For every radius `r` with `0 ≤ r < 2^61`, the program run
with 64-bit integers returns (given fuel for at least `r + 1` iterations), and
the first-octant points visited by its loop are exactly
`(0, Y(0)), (1, Y(1)), ..., (k, Y(k))` with `Y(x) = roundSqrt (r² - x²)`,
where `k ≤ r`, `k ≤ Y(k)`, and every `x` in `[0, r]` with `x ≤ Y(x)` is at most
`k` (so `k` is the largest such `x`).  `Y(x)` is `round(sqrt(r² - x²))` in the
real numbers, and for `y ≥ 1` it is `y` exactly when
`y² - y < r² - x² ≤ y² + y`. -/
theorem visitedPoints64_eq_oracle_columns (r : Int) (hr0 : 0 ≤ r) (hr : r < 2 ^ 61)
    (fuel : Nat) (hf : r + 1 ≤ fuel) :
    (∃ out : List (Int × Int), drawCircleInt64 fuel r = some out) ∧
    ∃ k : Nat,
      visitedPoints64 fuel r =
        (List.range (k + 1)).map (fun x : Nat => ((x : Int), roundSqrt (r * r - (x : Int) * x))) ∧
      (k : Int) ≤ r ∧ (k : Int) ≤ roundSqrt (r * r - (k : Int) * k) ∧
      (∀ x : Int, 0 ≤ x → x ≤ r → x ≤ roundSqrt (r * r - x * x) → x ≤ k) ∧
      (∀ x : Int, 0 ≤ x → x ≤ r →
        roundSqrt (r * r - x * x) = round (Real.sqrt (((r * r - x * x : Int)) : ℝ))) ∧
      (∀ x y : Int, 1 ≤ y →
        (roundSqrt (r * r - x * x) = y ↔
          y * y - y < r * r - x * x ∧ r * r - x * x ≤ y * y + y)) := by
  have hr' : r < 2305843009213693952 := by norm_num at hr; exact hr
  refine ⟨⟨_, (run64_eq r hr0 hr' fuel hf).2.2⟩, ?_⟩
  rw [(run64_eq r hr0 hr' fuel hf).1]
  exact visitedPoints_eq_oracle_columns r hr0

/-- The amended C12 at radius 3 and four iterations of fuel. -/
theorem visitedPoints64_eq_oracle_columns_witness :
    (0 : Int) ≤ 3 ∧ (3 : Int) < 2 ^ 61 ∧ (3 : Int) + 1 ≤ (4 : Nat) ∧
    (∃ out : List (Int × Int), drawCircleInt64 4 3 = some out) ∧
    ∃ k : Nat,
      visitedPoints64 4 3 =
        (List.range (k + 1)).map (fun x : Nat => ((x : Int), roundSqrt (3 * 3 - (x : Int) * x))) ∧
      (k : Int) ≤ 3 ∧ (k : Int) ≤ roundSqrt (3 * 3 - (k : Int) * k) ∧
      (∀ x : Int, 0 ≤ x → x ≤ 3 → x ≤ roundSqrt (3 * 3 - x * x) → x ≤ k) ∧
      (∀ x : Int, 0 ≤ x → x ≤ 3 →
        roundSqrt (3 * 3 - x * x) = round (Real.sqrt (((3 * 3 - x * x : Int)) : ℝ))) ∧
      (∀ x y : Int, 1 ≤ y →
        (roundSqrt (3 * 3 - x * x) = y ↔
          y * y - y < 3 * 3 - x * x ∧ 3 * 3 - x * x ≤ y * y + y)) :=
  ⟨by decide, by norm_num, by decide,
    visitedPoints64_eq_oracle_columns 3 (by decide) (by norm_num) 4 (by decide)⟩

/-- C13 (refuted as stated). At `r = 2^62 + 1` the first iteration of the
program, run with Go's 64-bit integers, is entered with `x = 0`, `y = r` and
is followed by a second iteration; after `x` is advanced to 1 it carries on
`y - 1 = 2^62`, whereas the candidate with the smaller squared-distance error
is `y = r`: the errors are `|1 + r² - r²| = 1` for `y` and
`|1 + (r-1)² - r²| = 2^63` for `y - 1`. -/
theorem decision_not_nearest_big :
    (0 : Int) ≤ 4611686018427387905 ∧
    loopStates64 (wrap64 (4611686018427387905 * 4611686018427387905)) 2
        (initState64 4611686018427387905) =
      [initState64 4611686018427387905,
       body64 (wrap64 (4611686018427387905 * 4611686018427387905))
         (initState64 4611686018427387905)] ∧
    (initState64 4611686018427387905).x = 0 ∧
    (initState64 4611686018427387905).y = 4611686018427387905 ∧
    (body64 (wrap64 (4611686018427387905 * 4611686018427387905))
      (initState64 4611686018427387905)).y = 4611686018427387904 ∧
    nearestCandidate 4611686018427387905 ((initState64 4611686018427387905).x + 1)
      (initState64 4611686018427387905).y = 4611686018427387905 ∧
    |(1 : Int) * 1 + 4611686018427387905 * 4611686018427387905 -
      4611686018427387905 * 4611686018427387905| = 1 ∧
    |(1 : Int) * 1 + (4611686018427387905 - 1) * (4611686018427387905 - 1) -
      4611686018427387905 * 4611686018427387905| = 9223372036854775808 := by
  refine ⟨by decide, by decide, rfl, rfl, by decide, by decide, by decide, by decide⟩

/-- C13 (amended). For every radius `r` with `0 ≤ r < 2^61` and every
iteration of the loop of the program run with 64-bit integers that is entered
with `y ≥ 1`, in particular every iteration that is followed by another one,
after `x` is advanced the `y` carried on is whichever of the two candidates
`y` and `y - 1` gives the smaller squared-distance error
`|x² + y'² - r²|`: `y` when `|a - r²| < |b - r²|` and `y - 1` when
`|b - r²| ≤ |a - r²|`, with `a = x² + y²` and `b = x² + (y-1)²`. -/
theorem decision64_nearest (r : Int) (hr0 : 0 ≤ r) (hr : r < 2 ^ 61) (fuel : Nat)
    (t : LoopState) (ht : t ∈ loopStates64 (wrap64 (r * r)) fuel (initState64 r)) :
    (1 ≤ t.y →
      (body64 (wrap64 (r * r)) t).y = nearestCandidate r (t.x + 1) t.y) ∧
    ((body64 (wrap64 (r * r)) t).x ≤ (body64 (wrap64 (r * r)) t).y →
      (body64 (wrap64 (r * r)) t).y = nearestCandidate r (t.x + 1) t.y) := by
  have hr' : r < 2305843009213693952 := by norm_num at hr; exact hr
  obtain ⟨s, hs, rfl⟩ := mem_loopStates64 r hr0 hr' fuel t ht
  obtain ⟨hts, hc⟩ := tracks_of_mem_loopStates r _ (tracks_initState r hr0) s hs
  have hb := body64_wrapState r hr' s hts hc
  have key : 1 ≤ s.y →
      (body64 (wrap64 (r * r)) (wrapState s)).y = nearestCandidate r (s.x + 1) s.y := by
    intro h1
    rw [hb]
    exact body_y_eq_nearestCandidate r s hts.xsq_eq hts.ysq_eq h1
  refine ⟨key, ?_⟩
  intro hn
  rw [hb] at hn
  exact key (one_le_y_of_next (r * r) s hts.x_nonneg hn)

/-- The amended C13 at radius 3, for the first iteration: it is entered with
`y = 3 ≥ 1` and followed by a second iteration, and it carries on `y = 3`. -/
theorem decision64_nearest_witness :
    (0 : Int) ≤ 3 ∧ (3 : Int) < 2 ^ 61 ∧
    initState64 3 ∈ loopStates64 (wrap64 (3 * 3)) 4 (initState64 3) ∧
    1 ≤ (initState64 3).y ∧
    (body64 (wrap64 (3 * 3)) (initState64 3)).x ≤ (body64 (wrap64 (3 * 3)) (initState64 3)).y ∧
    (body64 (wrap64 (3 * 3)) (initState64 3)).y =
      nearestCandidate 3 ((initState64 3).x + 1) (initState64 3).y ∧
    (body64 (wrap64 (3 * 3)) (initState64 3)).y = 3 :=
  have h : initState64 3 ∈ loopStates64 (wrap64 (3 * 3)) 4 (initState64 3) := by decide
  ⟨by decide, by norm_num, h, by decide, by decide,
    (decision64_nearest 3 (by decide) (by norm_num) 4 _ h).2 (by decide), by decide⟩

/-- C15 (refuted as stated). At `r = 2^62 + 1` the program, run with Go's
64-bit integers, emits `(1, 2^62)`, for which
`|x² + y² - r²| = 2^63 > 2^62 = max(|x|, |y|)`. -/
theorem error_bound_fails_big :
    (0 : Int) ≤ 4611686018427387905 ∧
    ((1, 4611686018427387904) : Int × Int) ∈ emitted64 2 4611686018427387905 ∧
    (∀ (fuel : Nat) (out : List (Int × Int)),
      drawCircleInt64 fuel 4611686018427387905 = some out →
        ((1, 4611686018427387904) : Int × Int) ∈ out) ∧
    |(1 : Int) * 1 + 4611686018427387904 * 4611686018427387904 -
      4611686018427387905 * 4611686018427387905| = 9223372036854775808 ∧
    max |(1 : Int)| |(4611686018427387904 : Int)| = 4611686018427387904 ∧
    ¬ (|(1 : Int) * 1 + 4611686018427387904 * 4611686018427387904 -
        4611686018427387905 * 4611686018427387905| ≤
      max |(1 : Int)| |(4611686018427387904 : Int)|) := by
  refine ⟨by decide, mem_emitted64_big, mem_of_drawCircleInt64_big, by decide, by decide,
    by decide⟩

/-- C15 (amended). For every radius `r` with `0 ≤ r < 2^61`, the program run
with 64-bit integers returns (given fuel for at least `r + 1` iterations), and
every point `(x, y)` among its calls satisfies
`|x² + y² - r²| ≤ max(|x|, |y|)`. -/
theorem emitted64_error_le (r : Int) (hr0 : 0 ≤ r) (hr : r < 2 ^ 61) (fuel : Nat)
    (hf : r + 1 ≤ fuel) :
    ∃ out : List (Int × Int), drawCircleInt64 fuel r = some out ∧
      ∀ x y : Int, (x, y) ∈ out → |x * x + y * y - r * r| ≤ max |x| |y| := by
  have hr' : r < 2305843009213693952 := by norm_num at hr; exact hr
  exact ⟨drawCircleInt r, (run64_eq r hr0 hr' fuel hf).2.2,
    fun x y h => emitted_error_le r hr0 x y h⟩

/-- The amended C15 at radius 3 and four iterations of fuel. -/
theorem emitted64_error_le_witness :
    (0 : Int) ≤ 3 ∧ (3 : Int) < 2 ^ 61 ∧ (3 : Int) + 1 ≤ (4 : Nat) ∧
    ∃ out : List (Int × Int), drawCircleInt64 4 3 = some out ∧
      ∀ x y : Int, (x, y) ∈ out → |x * x + y * y - 3 * 3| ≤ max |x| |y| :=
  ⟨by decide, by norm_num, by decide,
    emitted64_error_le 3 (by decide) (by norm_num) 4 (by decide)⟩

/-! ## The 64-bit text renderer -/

/-- A store that succeeds keeps the length of the buffer. -/
theorem length_of_store {buf buf' : List Char} {i : Int} {c : Char}
    (h : store buf i c = some buf') : buf'.length = buf.length := by
  unfold store at h
  split at h
  · simp only [Option.some.injEq] at h
    rw [← h, List.length_set]
  · simp at h

/-- A sequence of stores with one index out of range panics. -/
theorem foldlM_store_none (idx : Int × Int → Int) (pts : List (Int × Int)) (buf : List Char)
    (q : Int × Int) (hq : q ∈ pts) (hbad : ¬ (0 ≤ idx q ∧ idx q < buf.length)) :
    pts.foldlM (fun b p => store b (idx p) '#') buf = none := by
  induction pts generalizing buf with
  | nil => simp at hq
  | cons p ps ih =>
    rw [List.foldlM_cons]
    cases hst : store buf (idx p) '#' with
    | none => rfl
    | some b =>
      rcases List.mem_cons.1 hq with rfl | hq'
      · unfold store at hst
        rw [if_neg hbad] at hst
        simp at hst
      · have hl := length_of_store hst
        exact ih b hq' (by rw [hl]; exact hbad)

/-- Stores at indices that agree on the given points give the same result. -/
theorem foldlM_store_congr (f g : Int × Int → Int) (pts : List (Int × Int)) (buf : List Char)
    (h : ∀ p ∈ pts, f p = g p) :
    pts.foldlM (fun b p => store b (f p) '#') buf =
      pts.foldlM (fun b p => store b (g p) '#') buf := by
  induction pts generalizing buf with
  | nil => rfl
  | cons p ps ih =>
    rw [List.foldlM_cons, List.foldlM_cons, h p (List.mem_cons_self _ _)]
    cases store buf (g p) '#' with
    | none => rfl
    | some b => exact ih b (fun q hq => h q (List.mem_cons_of_mem _ hq))

/-- When no index wraps, the 64-bit newline loop is the newline loop: the
hypothesis `len + size < 2^63` keeps the last increment of `i` in range. -/
theorem newlineLoop64_eq (n : Nat) (fuel i : Nat) (buf : List Char)
    (hlen : (buf.length : Int) + n < 9223372036854775808)
    (hf : buf.length ≤ i + fuel * (n + 1)) :
    newlineLoop64 n fuel i buf = Outcome.ok (newlineLoop n i buf) := by
  induction fuel generalizing i buf with
  | zero =>
    have hc : ¬ i < buf.length := by omega
    rw [newlineLoop64, if_neg (by exact_mod_cast hc), newlineLoop, if_neg hc]
  | succ k ih =>
    by_cases hc : i < buf.length
    · have hst : store buf (i : Int) '\n' = some (buf.set i '\n') := by
        unfold store
        rw [if_pos ⟨by omega, by exact_mod_cast hc⟩]
        rfl
      have hw1 : wrap64 ((n : Int) + 1) = (n : Int) + 1 :=
        wrap64_eq (by unfold inInt64; omega)
      have hw2 : wrap64 ((i : Int) + ((n : Int) + 1)) = ((i + (n + 1) : Nat) : Int) := by
        rw [wrap64_eq (by unfold inInt64; omega)]
        push_cast
        rfl
      rw [newlineLoop64, if_pos (by exact_mod_cast hc), hst]
      simp only
      rw [hw1, hw2, ih (i + (n + 1)) (buf.set i '\n')
        (by rw [List.length_set]; exact hlen)
        (by rw [List.length_set, Nat.succ_mul] at *; omega)]
      conv_rhs => rw [newlineLoop, if_pos hc]
    · rw [newlineLoop64, if_neg (by exact_mod_cast hc), newlineLoop, if_neg hc]

/-- For `r ≤ 1518500248` and a point with coordinates in `[-r, r]` no step of
the index computation wraps. -/
theorem pixelIndex64_eq (r x y : Int) (hr0 : 0 ≤ r) (hr : r ≤ 1518500248)
    (hx0 : -r ≤ x) (hx1 : x ≤ r) (hy0 : -r ≤ y) (hy1 : y ≤ r) :
    pixelIndex64 r x y = pixelIndex r x y := by
  have hp0 : 0 ≤ (r * 2 + 1 + 1) * (r - y) := Int.mul_nonneg (by omega) (by omega)
  have hp1 : (r * 2 + 1 + 1) * (r - y) ≤ 9223372018778247008 :=
    le_trans (Int.mul_le_mul (by omega) (by omega) (by omega) (by norm_num) :
      (r * 2 + 1 + 1) * (r - y) ≤ 3037000498 * 3037000496) (by norm_num)
  unfold pixelIndex64 pixelIndex
  dsimp only
  rw [wrap64_eq (v := r * 2) (by unfold inInt64; omega),
    wrap64_eq (v := r * 2 + 1) (by unfold inInt64; omega),
    wrap64_eq (v := r * 2 + 1 + 1) (by unfold inInt64; omega),
    wrap64_eq (v := r - y) (by unfold inInt64; omega),
    wrap64_eq (v := (r * 2 + 1 + 1) * (r - y)) (by unfold inInt64; omega),
    wrap64_eq (v := (r * 2 + 1 + 1) * (r - y) + x) (by unfold inInt64; omega),
    wrap64_eq (v := (r * 2 + 1 + 1) * (r - y) + x + r)
      (by unfold inInt64; omega)]

/-- The 64-bit circle loop of the text renderer without fuel. -/
theorem textLoop64_zero (r rsq : Int) (s : LoopState) (buf : List Char) :
    textLoop64 r rsq 0 s buf = if s.x ≤ s.y then Outcome.outOfFuel else Outcome.ok buf := rfl

/-- One iteration of the 64-bit circle loop of the text renderer. -/
theorem textLoop64_succ (r rsq : Int) (fuel : Nat) (s : LoopState) (buf : List Char) :
    textLoop64 r rsq (fuel + 1) s buf =
      if s.x ≤ s.y then
        match (putPixels64 s.x s.y).foldlM
            (fun b p => store b (pixelIndex64 r p.1 p.2) '#') buf with
        | none => Outcome.panic
        | some buf' => textLoop64 r rsq fuel (body64 rsq s) buf'
      else
        Outcome.ok buf := rfl

/-- For `r ≤ 1518500248` the 64-bit loop with the storing callback does what
the stores of the calls of the unbounded loop do, in order. -/
theorem textLoop64_eq (r : Int) (hr0 : 0 ≤ r) (hr : r ≤ 1518500248) (fuel : Nat)
    (s : LoopState) (ht : Tracks r s) (hf : (loopStates (r * r) s).length ≤ fuel)
    (buf : List Char) :
    textLoop64 r (r * r) fuel s buf =
      Outcome.ofOption ((drawCircleIntLoop (r * r) s).foldlM
        (fun b p => store b (pixelIndex r p.1 p.2) '#') buf) := by
  induction fuel generalizing s buf with
  | zero =>
    have hc : ¬ s.x ≤ s.y := by
      intro hc
      rw [loopStates_of_le _ _ hc] at hf
      simp at hf
    rw [textLoop64_zero, if_neg hc, drawCircleIntLoop_of_not_le _ _ hc]
    simp [Outcome.ofOption]
  | succ k ih =>
    by_cases hc : s.x ≤ s.y
    · have hi := intermediates_inInt64 r (by omega) s ht hc
      have hcong : (putPixels s.x s.y).foldlM
            (fun b p => store b (pixelIndex64 r p.1 p.2) '#') buf =
          (putPixels s.x s.y).foldlM (fun b p => store b (pixelIndex r p.1 p.2) '#') buf := by
        apply foldlM_store_congr (fun p => pixelIndex64 r p.1 p.2) (fun p => pixelIndex r p.1 p.2)
        intro p hp
        have h0 := ht.x_nonneg
        have h1 := ht.y_le
        rw [mem_putPixels] at hp
        exact pixelIndex64_eq r p.1 p.2 hr0 hr (by omega) (by omega) (by omega) (by omega)
      rw [loopStates_of_le _ _ hc, List.length_cons] at hf
      rw [textLoop64_succ, if_pos hc, putPixels64_eq_putPixels _ _ hi, body64_eq_body _ _ hi, hcong,
        drawCircleIntLoop_of_le _ _ hc, List.foldlM_append]
      cases hfold : (putPixels s.x s.y).foldlM
          (fun b p => store b (pixelIndex r p.1 p.2) '#') buf with
      | none => simp [Outcome.ofOption]
      | some b =>
        simp only [Option.some_bind, Option.bind_eq_bind]
        exact ih _ (tracks_body r s ht hc) (by omega) b
    · rw [textLoop64_succ, if_neg hc, drawCircleIntLoop_of_not_le _ _ hc]
      simp [Outcome.ofOption]

/-- For `r ≤ 1518500248`, with fuel for `2r + 1` iterations, the 64-bit text
renderer returns what the renderer with unbounded integers returns. -/
theorem drawCircleText64_eq (canAlloc : Int → Bool) (r : Nat) (hr : r ≤ 1518500248)
    (ha : canAlloc (((2 * r + 2) * (2 * r + 1) : Nat) : Int) = true) (fuel : Nat)
    (hf : 2 * r + 1 ≤ fuel) :
    drawCircleText64 canAlloc fuel (r : Int) = Outcome.ofOption (drawCircleText (r : Int)) := by
  have hr0 : (0 : Int) ≤ r := Int.natCast_nonneg r
  have hrI : (r : Int) ≤ 1518500248 := by exact_mod_cast hr
  have hcount : (2 * r + 2) * (2 * r + 1) ≤ 9223372030780775506 :=
    le_trans (Nat.mul_le_mul (by omega) (by omega) :
      (2 * r + 2) * (2 * r + 1) ≤ 3037000498 * 3037000497) (by norm_num)
  have hrr : (r : Int) * r ≤ 1518500248 * 1518500248 := mul_self_le_mul_self hr0 hrI
  have hrr0 := mul_self_nonneg (r : Int)
  have e1 : wrap64 (wrap64 ((r : Int) * 2) + 1) = ((2 * r + 1 : Nat) : Int) := by
    rw [wrap64_eq (v := (r : Int) * 2) (by unfold inInt64; omega),
      wrap64_eq (v := (r : Int) * 2 + 1) (by unfold inInt64; omega)]
    push_cast
    ring
  have e2 : wrap64 (wrap64 (((2 * r + 1 : Nat) : Int) + 1) * ((2 * r + 1 : Nat) : Int)) =
      (((2 * r + 2) * (2 * r + 1) : Nat) : Int) := by
    rw [wrap64_eq (v := ((2 * r + 1 : Nat) : Int) + 1) (by unfold inInt64; omega)]
    have : (((2 * r + 1 : Nat) : Int) + 1) * ((2 * r + 1 : Nat) : Int) =
        (((2 * r + 2) * (2 * r + 1) : Nat) : Int) := by
      push_cast; ring
    rw [this]
    exact wrap64_eq (by unfold inInt64; omega)
  have e3 : wrap64 ((r : Int) * r) = (r : Int) * r :=
    wrap64_eq (by unfold inInt64; norm_num at hrr; omega)
  have hnl := newlineLoop64_eq (2 * r + 1) fuel (2 * r + 1)
    (List.replicate ((2 * r + 2) * (2 * r + 1)) ' ')
    (by
      rw [List.length_replicate]
      have : (((2 * r + 2) * (2 * r + 1) : Nat) : Int) ≤ 9223372030780775506 := by
        exact_mod_cast hcount
      omega)
    (by
      rw [List.length_replicate]
      have h1 : (2 * r + 1) * (2 * r + 2) ≤ fuel * (2 * r + 2) :=
        Nat.mul_le_mul_right _ hf
      have h2 : (2 * r + 2) * (2 * r + 1) = (2 * r + 1) * (2 * r + 2) := Nat.mul_comm _ _
      have h3 : fuel * (2 * r + 1 + 1) = fuel * (2 * r + 2) := rfl
      omega)
  have hinit : initState64 (r : Int) = initState (r : Int) := by
    unfold initState64 initState
    rw [e3]
  unfold drawCircleText64
  dsimp only
  rw [e1, e2, if_neg (by omega), if_neg (by rw [ha]; decide), Int.toNat_natCast, hnl]
  simp only
  rw [e3, hinit, textLoop64_eq r hr0 hrI fuel _ (tracks_initState r hr0)
    (by have := length_loopStates_le r hr0; omega), drawCircleText_natCast]
  rfl


/-- The 64-bit text renderer, once the size and the count are known and the
newline loop has returned, continues with the circle loop. -/
theorem drawCircleText64_of_newline (canAlloc : Int → Bool) (fuel : Nat) (r n c : Int)
    (m : Nat) (buf : List Char)
    (hs : wrap64 (wrap64 (r * 2) + 1) = n) (hc : wrap64 (wrap64 (n + 1) * n) = c)
    (hc0 : 0 ≤ c) (ha : canAlloc c = true) (hm : c.toNat = m)
    (hnl : newlineLoop64 n fuel n (List.replicate m ' ') = Outcome.ok buf) :
    drawCircleText64 canAlloc fuel r =
      textLoop64 r (wrap64 (r * r)) fuel (initState64 r) buf := by
  subst hs hc hm
  unfold drawCircleText64
  dsimp only
  rw [if_neg (by omega), if_neg (by rw [ha]; decide), hnl]

/-- An iteration of the 64-bit circle loop with a store out of range
panics. -/
theorem textLoop64_panic (r rsq : Int) (fuel : Nat) (s : LoopState) (buf : List Char)
    (hc : s.x ≤ s.y) (q : Int × Int) (hq : q ∈ putPixels64 s.x s.y)
    (hbad : ¬ (0 ≤ pixelIndex64 r q.1 q.2 ∧ pixelIndex64 r q.1 q.2 < buf.length)) :
    textLoop64 r rsq (fuel + 1) s buf = Outcome.panic := by
  rw [textLoop64_succ, if_pos hc,
    foldlM_store_none (fun p => pixelIndex64 r p.1 p.2) _ _ q hq hbad]

/-! ## The claims about the text renderer that depend on the integer width -/

/-- The 64-bit text renderer at radius 3 and at radius 0, with fuel for seven
iterations, when the runtime provides the buffer: the outputs of the renderer
with unbounded integers. -/
theorem drawCircleText64_three_zero :
    drawCircleText64 (fun _ => true) 7 3 =
      Outcome.ok "  ###  \n #   # \n#     #\n#     #\n#     #\n #   # \n  ###  \n".toList ∧
    drawCircleText64 (fun _ => true) 7 0 = Outcome.ok ['#', '\n'] := by
  have h3 := drawCircleText64_eq (fun _ => true) 3 (by norm_num) rfl 7 (by norm_num)
  have h0 := drawCircleText64_eq (fun _ => true) 0 (by norm_num) rfl 7 (by norm_num)
  simp only [Nat.cast_ofNat, Nat.cast_zero] at h3 h0
  rw [h3, h0, drawCircleText_three_eval, drawCircleText_zero_eval]
  exact ⟨rfl, rfl⟩

/-- C3 (refuted as stated). At `r = 2000000000` the count `(size+1)*size`
passed to `bytes.Repeat`, computed with Go's 64-bit integers, is
`-2446744061709551614`, so `drawCircleText` panics and writes nothing,
whatever the runtime allocates and whatever the fuel. -/
theorem drawCircleText64_panics_big :
    (0 : Int) ≤ 2000000000 ∧
    wrap64 (wrap64 (wrap64 (wrap64 (2000000000 * 2) + 1) + 1) *
      wrap64 (wrap64 (2000000000 * 2) + 1)) = -2446744061709551614 ∧
    ∀ (canAlloc : Int → Bool) (fuel : Nat),
      drawCircleText64 canAlloc fuel 2000000000 = Outcome.panic := by
  have hc : wrap64 (wrap64 (wrap64 (wrap64 (2000000000 * 2) + 1) + 1) *
      wrap64 (wrap64 (2000000000 * 2) + 1)) = -2446744061709551614 := by decide
  refine ⟨by decide, hc, ?_⟩
  intro canAlloc fuel
  unfold drawCircleText64
  dsimp only
  rw [hc, if_pos (by decide)]

/-- C3 (amended). For every radius `r` with `0 ≤ r ≤ 1518500248` (the radii
for which the buffer length `(2r+1)*(2r+2)` and the last value of the newline
index fit in 64 bits) for which the runtime provides the buffer,
`drawCircleText(r)` run with 64-bit integers does not panic (given fuel for
at least `2r + 1` iterations) and writes `(2r+1)*(2r+2)` bytes forming `2r+1`
rows of `2r+2` bytes each: in row `i` (from the top) the byte in column
`j < 2r+1` is `'#'` if the point `(j - r, r - i)` is emitted by
`drawCircleInt(r)`, run with 64-bit integers, and a space otherwise, and the
last byte of the row is `'\n'`. -/
theorem drawCircleText64_grid (canAlloc : Int → Bool) (r : Nat) (hr : r ≤ 1518500248)
    (ha : canAlloc (((2 * r + 2) * (2 * r + 1) : Nat) : Int) = true) (fuel : Nat)
    (hf : 2 * r + 1 ≤ fuel) :
    ∃ (out : List Char) (pts : List (Int × Int)),
      drawCircleText64 canAlloc fuel (r : Int) = Outcome.ok out ∧
      drawCircleInt64 fuel (r : Int) = some pts ∧
      out.length = (2 * r + 1) * (2 * r + 2) ∧
      ∀ i, i < 2 * r + 1 →
        (∀ j, j < 2 * r + 1 →
          out[i * (2 * r + 2) + j]? =
            some (if (((j : Int) - r, (r : Int) - i) : Int × Int) ∈ pts then '#' else ' ')) ∧
        out[i * (2 * r + 2) + (2 * r + 1)]? = some '\n' := by
  obtain ⟨out, ho, hlen, hgrid⟩ := drawCircleText_description r
  have hrun := (run64_eq (r : Int) (Int.natCast_nonneg r) (by omega) fuel (by omega)).2.2
  refine ⟨out, drawCircleInt (r : Int), ?_, hrun, hlen, hgrid⟩
  rw [drawCircleText64_eq canAlloc r hr ha fuel hf, ho]
  rfl

/-- The amended C3 at radius 1 and three iterations of fuel, with a runtime
that provides every buffer. -/
theorem drawCircleText64_grid_witness :
    (1 : Nat) ≤ 1518500248 ∧ 2 * 1 + 1 ≤ 3 ∧
    ∃ (out : List Char) (pts : List (Int × Int)),
      drawCircleText64 (fun _ => true) 3 ((1 : Nat) : Int) = Outcome.ok out ∧
      drawCircleInt64 3 ((1 : Nat) : Int) = some pts ∧
      out.length = (2 * 1 + 1) * (2 * 1 + 2) ∧
      ∀ i : Nat, i < 2 * 1 + 1 →
        (∀ j : Nat, j < 2 * 1 + 1 →
          out[i * (2 * 1 + 2) + j]? =
            some (if (((j : Int) - (1 : Nat), ((1 : Nat) : Int) - i) : Int × Int) ∈ pts
                  then '#' else ' ')) ∧
        out[i * (2 * 1 + 2) + (2 * 1 + 1)]? = some '\n' :=
  ⟨by decide, by decide, drawCircleText64_grid (fun _ => true) 1 (by decide) rfl 3 (by decide)⟩

/-- C10 (refuted as stated). At `r = 2^31 = 2147483648` the first iteration
of the program, run with Go's 64-bit integers, calls `putPixel(r, 0)`; the
index computed for it wraps to `-9223372028264841216`, which is not in
`[0, (size+1)*size)`, so the store is out of range: `drawCircleText` panics,
whatever the runtime allocates, for any fuel of at least two iterations. -/
theorem pixel_store64_fails_big :
    (0 : Int) ≤ 2147483648 ∧
    ((2147483648, 0) : Int × Int) ∈ emitted64 1 2147483648 ∧
    pixelIndex64 2147483648 2147483648 0 = -9223372028264841216 ∧
    ¬ (0 ≤ pixelIndex64 2147483648 2147483648 0) ∧
    ∀ (canAlloc : Int → Bool) (fuel : Nat), 2 ≤ fuel →
      drawCircleText64 canAlloc fuel 2147483648 = Outcome.panic := by
  have hidx : pixelIndex64 2147483648 2147483648 0 = -9223372028264841216 := by decide
  refine ⟨by decide, by decide, hidx, by rw [hidx]; decide, ?_⟩
  intro canAlloc fuel hf
  by_cases ha : canAlloc 12884901890 = true
  swap
  · have hc : wrap64 (wrap64 (wrap64 (wrap64 (2147483648 * 2) + 1) + 1) *
        wrap64 (wrap64 (2147483648 * 2) + 1)) = 12884901890 := by decide
    unfold drawCircleText64
    dsimp only
    rw [hc, if_neg (by decide), if_pos (by simpa using ha)]
  obtain ⟨k, rfl⟩ : ∃ k, fuel = k + 1 := ⟨fuel - 1, by omega⟩
  have hnl := newlineLoop64_eq 4294967297 (k + 1) 4294967297 (List.replicate 12884901890 ' ')
    (by rw [List.length_replicate]; norm_num)
    (by rw [List.length_replicate]; omega)
  simp only [Nat.cast_ofNat] at hnl
  rw [drawCircleText64_of_newline canAlloc (k + 1) 2147483648 4294967297 12884901890
    12884901890 _ (by decide) (by decide) (by decide) ha (by decide) hnl]
  exact textLoop64_panic _ _ k _ _ (by decide) (2147483648, 0) (by decide)
    (by rw [hidx]; omega)

/-- C10 (amended). For every radius `r` with `0 ≤ r ≤ 1518500248` for which
the runtime provides the buffer, the program run with 64-bit integers returns
its points and `drawCircleText(r)` does not panic (given fuel for at least
`2r + 1` iterations), so no store is out of range; for every
emitted point `(x, y)`: `-r ≤ x ≤ r` and `-r ≤ y ≤ r`; with
`size = r*2 + 1`, the index `(size+1)*(r-y)+x+r` as computed lies in
`[0, (size+1)*size)` and is not congruent to `size` modulo `size + 1`, that
is, it is a valid index of the buffer and not the position of a line
terminator. -/
theorem pixel_store64_safe (canAlloc : Int → Bool) (r : Int) (hr0 : 0 ≤ r)
    (hr : r ≤ 1518500248) (ha : canAlloc ((r * 2 + 1 + 1) * (r * 2 + 1)) = true) (fuel : Nat)
    (hf : 2 * r + 1 ≤ fuel) :
    ∃ (pts : List (Int × Int)) (out : List Char),
      drawCircleInt64 fuel r = some pts ∧
      drawCircleText64 canAlloc fuel r = Outcome.ok out ∧
      ∀ x y : Int, (x, y) ∈ pts →
        (-r ≤ x ∧ x ≤ r ∧ -r ≤ y ∧ y ≤ r) ∧
        (0 ≤ pixelIndex64 r x y ∧ pixelIndex64 r x y < (r * 2 + 1 + 1) * (r * 2 + 1)) ∧
        pixelIndex64 r x y % (r * 2 + 1 + 1) ≠ r * 2 + 1 := by
  have hrun := (run64_eq r hr0 (by omega) fuel (by omega)).2.2
  lift r to Nat using hr0
  obtain ⟨out, ho, -⟩ := drawCircleText_description r
  refine ⟨drawCircleInt (r : Int), out, hrun, ?_, ?_⟩
  · have e : (((2 * r + 2) * (2 * r + 1) : Nat) : Int) =
        ((r : Int) * 2 + 1 + 1) * ((r : Int) * 2 + 1) := by
      push_cast; ring
    rw [drawCircleText64_eq canAlloc r (by exact_mod_cast hr) (by rw [e]; exact ha) fuel
      (by exact_mod_cast hf), ho]
    rfl
  · intro x y h
    obtain ⟨h1, h2, h3, h4⟩ := emitted_bounds r (Int.natCast_nonneg r) (x, y) h
    dsimp only at h1 h2 h3 h4
    obtain ⟨h5, h6, h7⟩ := pixelIndex_bounds r x y h1 h2 h3 h4
    rw [pixelIndex64_eq r x y (Int.natCast_nonneg r) hr h1 h2 h3 h4]
    refine ⟨⟨h1, h2, h3, h4⟩, ⟨h5, ?_⟩, ?_⟩
    · have e : ((r : Int) * 2 + 1 + 1) * ((r : Int) * 2 + 1) =
          (((2 * r + 2) * (2 * r + 1) : Nat) : Int) := by
        push_cast; ring
      rw [e]
      exact h6
    · have e : (r : Int) * 2 + 1 + 1 = 2 * (r : Int) + 2 := by ring
      rw [e, h7]
      omega

/-- The amended C10 at radius 3 and seven iterations of fuel, with a runtime
that provides every buffer. -/
theorem pixel_store64_safe_witness :
    (0 : Int) ≤ 3 ∧ (3 : Int) ≤ 1518500248 ∧ 2 * (3 : Int) + 1 ≤ (7 : Nat) ∧
    ∃ (pts : List (Int × Int)) (out : List Char),
      drawCircleInt64 7 3 = some pts ∧
      drawCircleText64 (fun _ => true) 7 3 = Outcome.ok out ∧
      ∀ x y : Int, (x, y) ∈ pts →
        (-3 ≤ x ∧ x ≤ 3 ∧ -3 ≤ y ∧ y ≤ 3) ∧
        (0 ≤ pixelIndex64 3 x y ∧ pixelIndex64 3 x y < (3 * 2 + 1 + 1) * (3 * 2 + 1)) ∧
        pixelIndex64 3 x y % (3 * 2 + 1 + 1) ≠ 3 * 2 + 1 :=
  ⟨by decide, by decide, by decide,
    pixel_store64_safe (fun _ => true) 3 (by decide) (by decide) rfl 7 (by decide)⟩

/-! ## Facts about the HTTP handler -/

/-- For a square of side at most 1518500249 the pixel buffer length
`4 * d * d` fits in an `int`, and `mul3NonNeg` returns it. -/
theorem mul3NonNeg_of_le (d : Int) (h0 : 0 ≤ d) (h : d ≤ 1518500249) :
    mul3NonNeg 4 d d = 4 * d * d := by
  have h1 : d * d ≤ 1518500249 * 1518500249 := mul_self_le_mul_self h0 h
  have h2 : 4 * d * d = 4 * (d * d) := by ring
  unfold mul3NonNeg
  rw [if_neg (by omega), if_neg (by omega), if_neg (by omega), if_neg (by omega)]

/-- For a square of side at least 1518500250 the pixel buffer length does not
fit in an `int`, and `mul3NonNeg` returns `-1`. -/
theorem mul3NonNeg_of_ge (d : Int) (h : 1518500250 ≤ d) : mul3NonNeg 4 d d = -1 := by
  have h1 : 1518500250 * 1518500250 ≤ d * d := mul_self_le_mul_self (by norm_num) h
  have h2 : 4 * d * d = 4 * (d * d) := by ring
  unfold mul3NonNeg
  split_ifs <;> first | rfl | omega

/-- For `0 ≤ n ≤ 759250124`, when the runtime provides the pixel buffer and
the fuel suffices, `drawCircleImage` returns an image with bounds
`(0, 0)-(2n+1, 2n+1)` whose white pixels are the pixels `(x + n, n - y)` for
the points `(x, y)` emitted by `drawCircleInt`. -/
theorem drawCircleImage_ok (canAlloc : Int → Bool) (fuel : Nat) (n : Int) (h0 : 0 ≤ n)
    (hn : n ≤ 759250124) (ha : canAlloc (4 * (2 * n + 1) * (2 * n + 1)) = true)
    (hf : n + 1 ≤ fuel) :
    ∃ im : Image, drawCircleImage canAlloc fuel n = Outcome.ok im ∧
      im.lo = 0 ∧ im.hi = 2 * n + 1 ∧
      ∀ c row : Int, (c, row) ∈ im.white ↔ (c - n, n - row) ∈ drawCircleInt n := by
  have hrun := (run64_eq n h0 (by omega) fuel hf).2.2
  have es : wrap64 (wrap64 (n * 2) + 1) = 2 * n + 1 := by
    rw [wrap64_eq (v := n * 2) (by unfold inInt64; omega),
      wrap64_eq (v := n * 2 + 1) (by unfold inInt64; omega)]
    ring
  have elo : min 0 (2 * n + 1) = 0 := min_eq_left (by omega)
  have ehi : max 0 (2 * n + 1) = 2 * n + 1 := max_eq_right (by omega)
  have ed : wrap64 (2 * n + 1 - 0) = 2 * n + 1 := by
    rw [sub_zero]
    exact wrap64_eq (by unfold inInt64; omega)
  have em := mul3NonNeg_of_le (2 * n + 1) (by omega) (by omega)
  have hpos : 0 ≤ 4 * (2 * n + 1) * (2 * n + 1) := by positivity
  refine ⟨Image.mk 0 (2 * n + 1)
      (((drawCircleInt n).map (fun p => (wrap64 (p.1 + n), wrap64 (n - p.2)))).filter
        (fun q => decide (0 ≤ q.1 ∧ q.1 < 2 * n + 1 ∧ 0 ≤ q.2 ∧ q.2 < 2 * n + 1))),
    ?_, rfl, rfl, ?_⟩
  · unfold drawCircleImage
    dsimp only
    rw [es, elo, ehi, ed, em, if_neg (by omega), if_neg (by rw [ha]; decide), hrun]
  · intro c row
    simp only [List.mem_filter, List.mem_map, decide_eq_true_eq, Prod.exists, Prod.mk.injEq]
    constructor
    · rintro ⟨⟨x, y, hp, rfl, rfl⟩, -⟩
      obtain ⟨h1, h2, h3, h4⟩ := emitted_bounds n h0 (x, y) hp
      dsimp only at h1 h2 h3 h4
      rw [wrap64_eq (v := x + n) (by unfold inInt64; omega),
        wrap64_eq (v := n - y) (by unfold inInt64; omega)]
      have e1 : x + n - n = x := by ring
      have e2 : n - (n - y) = y := by ring
      rw [e1, e2]
      exact hp
    · intro hp
      obtain ⟨h1, h2, h3, h4⟩ := emitted_bounds n h0 _ hp
      dsimp only at h1 h2 h3 h4
      refine ⟨⟨c - n, n - row, hp, ?_, ?_⟩, by omega, by omega, by omega, by omega⟩
      · rw [wrap64_eq (by unfold inInt64; omega)]
        ring
      · rw [wrap64_eq (by unfold inInt64; omega)]
        ring

/-- For `759250124 < n ≤ 2^63 - 759250126` the side of the rectangle, as
computed, is at least 1518500250 in absolute value, and `image.NewNRGBA`
panics. -/
theorem drawCircleImage_panic (canAlloc : Int → Bool) (fuel : Nat) (n : Int)
    (h1 : 759250124 < n) (h2 : n ≤ 9223372036095525682) :
    drawCircleImage canAlloc fuel n = Outcome.panic := by
  have hd : 1518500250 ≤ wrap64 (max 0 (wrap64 (wrap64 (n * 2) + 1)) -
      min 0 (wrap64 (wrap64 (n * 2) + 1))) := by
    by_cases hlt : n < 4611686018427387904
    · have es : wrap64 (wrap64 (n * 2) + 1) = 2 * n + 1 := by
        rw [wrap64_eq (v := n * 2) (by unfold inInt64; omega),
          wrap64_eq (v := n * 2 + 1) (by unfold inInt64; omega)]
        ring
      rw [es, min_eq_left (by omega), max_eq_right (by omega),
        wrap64_eq (by unfold inInt64; omega)]
      omega
    · have e1 : wrap64 (n * 2) = n * 2 - 18446744073709551616 := by
        unfold wrap64; omega
      have es : wrap64 (wrap64 (n * 2) + 1) = n * 2 + 1 - 18446744073709551616 := by
        rw [e1, wrap64_eq (by unfold inInt64; omega)]
        ring
      rw [es, min_eq_right (by omega), max_eq_left (by omega),
        wrap64_eq (by unfold inInt64; omega)]
      omega
  unfold drawCircleImage
  dsimp only
  rw [mul3NonNeg_of_ge _ hd, if_pos (by decide)]

/-- The first call of a rendering is `png.Encode`, that of a rejection is
`w.WriteHeader`. -/
theorem renderCalls_ne_badRequestCalls (encodeError : Image → Option String) (im : Image) :
    renderCalls encodeError im ≠ badRequestCalls := by
  unfold renderCalls badRequestCalls
  cases encodeError im <;> simp

/-- The function `renderRadius` never returns the calls of a rejection. -/
theorem renderRadius_ne_badRequest (encodeError : Image → Option String)
    (canAlloc : Int → Bool) (fuel : Nat) (n : Int) :
    renderRadius encodeError canAlloc fuel n ≠ Outcome.ok badRequestCalls := by
  unfold renderRadius
  cases drawCircleImage canAlloc fuel n with
  | ok im =>
    intro h
    exact renderCalls_ne_badRequestCalls encodeError im (Outcome.ok.inj h)
  | panic => simp
  | outOfFuel => simp

/-- The handler on a non-empty form value that parses to a non-negative
integer renders that radius. -/
theorem httpHandler_of_parsed (atoi : String → Option Int) (encodeError : Image → Option String)
    (canAlloc : Int → Bool) (fuel : Nat) (radiusStr : String) (n : Int)
    (hs : radiusStr ≠ "") (hp : atoi radiusStr = some n) (h0 : 0 ≤ n) :
    httpHandler atoi encodeError canAlloc fuel radiusStr =
      renderRadius encodeError canAlloc fuel n := by
  unfold httpHandler
  rw [if_pos hs, hp]
  dsimp only
  rw [if_neg (by omega)]

/-- The handler on an empty form value renders the default radius. -/
theorem httpHandler_empty (atoi : String → Option Int) (encodeError : Image → Option String)
    (canAlloc : Int → Bool) (fuel : Nat) :
    httpHandler atoi encodeError canAlloc fuel "" =
      renderRadius encodeError canAlloc fuel 3 := by
  unfold httpHandler
  rw [if_neg (by simp)]
  rfl

/-- For `0 ≤ n ≤ 759250124`, when the runtime provides the pixel buffer and
the fuel suffices, `renderRadius` encodes the image of the circle. -/
theorem renderRadius_ok (encodeError : Image → Option String) (canAlloc : Int → Bool)
    (fuel : Nat) (n : Int) (h0 : 0 ≤ n) (hn : n ≤ 759250124)
    (ha : canAlloc (4 * (2 * n + 1) * (2 * n + 1)) = true) (hf : n + 1 ≤ fuel) :
    ∃ (im : Image) (pts : List (Int × Int)),
      renderRadius encodeError canAlloc fuel n = Outcome.ok (renderCalls encodeError im) ∧
      drawCircleInt64 fuel n = some pts ∧ im.lo = 0 ∧ im.hi = 2 * n + 1 ∧
      ∀ c row : Int, (c, row) ∈ im.white ↔ (c - n, n - row) ∈ pts := by
  obtain ⟨im, him, hlo, hhi, hw⟩ := drawCircleImage_ok canAlloc fuel n h0 hn ha hf
  refine ⟨im, drawCircleInt n, ?_, (run64_eq n h0 (by omega) fuel hf).2.2, hlo, hhi, hw⟩
  unfold renderRadius
  rw [him]

/-! ## The claim about the HTTP handler -/

/-- C11 (refuted as stated). The form value `"2147483648"` is non-empty and
`strconv.Atoi` parses it to the non-negative integer `2^31`, yet the handler
neither rejects the request nor renders anything: `image.NewNRGBA` panics on
the dimensions `4294967297 x 4294967297`, before any call on the response
writer, whatever the encoder, the runtime and the fuel. -/
theorem httpHandler_panics_big :
    "2147483648" ≠ "" ∧ goAtoi "2147483648" = some 2147483648 ∧ (0 : Int) ≤ 2147483648 ∧
    ∀ (encodeError : Image → Option String) (canAlloc : Int → Bool) (fuel : Nat),
      httpHandler goAtoi encodeError canAlloc fuel "2147483648" = Outcome.panic ∧
      httpHandler goAtoi encodeError canAlloc fuel "2147483648" ≠ Outcome.ok badRequestCalls ∧
      ∀ im : Image, httpHandler goAtoi encodeError canAlloc fuel "2147483648" ≠
        Outcome.ok (renderCalls encodeError im) := by
  have hp : goAtoi "2147483648" = some 2147483648 := by decide
  refine ⟨by decide, hp, by decide, ?_⟩
  intro encodeError canAlloc fuel
  have h : httpHandler goAtoi encodeError canAlloc fuel "2147483648" = Outcome.panic := by
    rw [httpHandler_of_parsed goAtoi encodeError canAlloc fuel "2147483648" 2147483648
      (by decide) hp (by decide)]
    unfold renderRadius
    rw [drawCircleImage_panic canAlloc fuel 2147483648 (by decide) (by decide)]
  rw [h]
  exact ⟨rfl, by simp, by simp⟩

/-- C11 (amended). With `atoi` any partial function from strings to integers
standing for `strconv.Atoi`, `encodeError` any behaviour of the png encoder
and `canAlloc` any behaviour of the allocator:

* the handler responds with status 400 and the text
  `radius must be a positive integer, e.g., ?r=42` if and only if the form
  value is non-empty and either fails to parse or parses to a negative
  integer, and that response contains no `png.Encode` call;
* when the form value is non-empty and parses to `n` with
  `0 ≤ n ≤ 759250124`, the pixel buffer of `4*(2n+1)*(2n+1)` bytes is
  provided and the fuel allows `n + 1` iterations, the handler passes to
  `png.Encode` the image with bounds `(0, 0)-(2n+1, 2n+1)` whose white pixels
  are exactly the pixels `(c, row)` with `(c - n, n - row)` emitted by
  `drawCircleInt(n)` run with 64-bit integers (followed by the error text
  only when the encoder fails);
* when the form value is empty it does the same with radius 3, and its result
  is that of the form value `"3"` whenever that parses to 3;
* a rendering never sets a status;
* when the form value parses to `n` with `759250124 < n ≤ 2^63 - 759250126`
  the handler panics in `image.NewNRGBA` and makes no call on the writer. -/
theorem httpHandler_spec (atoi : String → Option Int) (encodeError : Image → Option String)
    (canAlloc : Int → Bool) (fuel : Nat) (radiusStr : String) :
    (httpHandler atoi encodeError canAlloc fuel radiusStr = Outcome.ok badRequestCalls ↔
      radiusStr ≠ "" ∧
        (atoi radiusStr = none ∨ ∃ n : Int, atoi radiusStr = some n ∧ n < 0)) ∧
    badRequestCalls = [WriterCall.writeHeader 400,
      WriterCall.writeText "radius must be a positive integer, e.g., ?r=42"] ∧
    (∀ im : Image, WriterCall.pngEncode im ∉ badRequestCalls) ∧
    (∀ n : Int, radiusStr ≠ "" → atoi radiusStr = some n → 0 ≤ n → n ≤ 759250124 →
      canAlloc (4 * (2 * n + 1) * (2 * n + 1)) = true → n + 1 ≤ fuel →
      ∃ (im : Image) (pts : List (Int × Int)),
        httpHandler atoi encodeError canAlloc fuel radiusStr =
          Outcome.ok (renderCalls encodeError im) ∧
        drawCircleInt64 fuel n = some pts ∧ im.lo = 0 ∧ im.hi = 2 * n + 1 ∧
        ∀ c row : Int, (c, row) ∈ im.white ↔ (c - n, n - row) ∈ pts) ∧
    (radiusStr = "" → canAlloc 196 = true → 4 ≤ fuel →
      ∃ (im : Image) (pts : List (Int × Int)),
        httpHandler atoi encodeError canAlloc fuel radiusStr =
          Outcome.ok (renderCalls encodeError im) ∧
        drawCircleInt64 fuel 3 = some pts ∧ im.lo = 0 ∧ im.hi = 7 ∧
        ∀ c row : Int, (c, row) ∈ im.white ↔ (c - 3, 3 - row) ∈ pts) ∧
    (atoi "3" = some 3 →
      httpHandler atoi encodeError canAlloc fuel "" =
        httpHandler atoi encodeError canAlloc fuel "3") ∧
    (∀ im : Image,
      (renderCalls encodeError im).head? = some (WriterCall.pngEncode im) ∧
      ∀ status : Nat, WriterCall.writeHeader status ∉ renderCalls encodeError im) ∧
    (∀ n : Int, radiusStr ≠ "" → atoi radiusStr = some n → 759250124 < n →
      n ≤ 9223372036095525682 →
      httpHandler atoi encodeError canAlloc fuel radiusStr = Outcome.panic) := by
  refine ⟨?_, rfl, ?_, ?_, ?_, ?_, ?_, ?_⟩
  · constructor
    · intro h
      by_cases hs : radiusStr = ""
      · subst hs
        rw [httpHandler_empty] at h
        exact absurd h (renderRadius_ne_badRequest _ _ _ _)
      · refine ⟨hs, ?_⟩
        cases hp : atoi radiusStr with
        | none => exact Or.inl rfl
        | some n =>
          right
          refine ⟨n, rfl, ?_⟩
          by_contra hn
          rw [httpHandler_of_parsed atoi encodeError canAlloc fuel radiusStr n hs hp
            (by omega)] at h
          exact renderRadius_ne_badRequest _ _ _ _ h
    · rintro ⟨hs, hp | ⟨n, hp, hn⟩⟩
      · unfold httpHandler
        rw [if_pos hs, hp]
      · unfold httpHandler
        rw [if_pos hs, hp]
        dsimp only
        rw [if_pos hn]
  · intro im
    simp [badRequestCalls]
  · intro n hs hp h0 hn ha hf
    rw [httpHandler_of_parsed atoi encodeError canAlloc fuel radiusStr n hs hp h0]
    exact renderRadius_ok encodeError canAlloc fuel n h0 hn ha hf
  · intro hs ha hf
    subst hs
    rw [httpHandler_empty]
    exact renderRadius_ok encodeError canAlloc fuel 3 (by norm_num) (by norm_num)
      (by norm_num; exact ha) (by norm_num; omega)
  · intro h3
    rw [httpHandler_empty,
      httpHandler_of_parsed atoi encodeError canAlloc fuel "3" 3 (by decide) h3 (by norm_num)]
  · intro im
    unfold renderCalls
    cases encodeError im <;> simp
  · intro n hs hp h1 h2
    rw [httpHandler_of_parsed atoi encodeError canAlloc fuel radiusStr n hs hp (by omega)]
    unfold renderRadius
    rw [drawCircleImage_panic canAlloc fuel n h1 h2]

/-- The amended C11 with the parser `goAtoi`, an encoder that succeeds, a
runtime that provides every buffer and fuel for eight iterations: `"7"` and
`"+5"` parse and `"7"` is rendered as the 15 x 15 image of the circle of
radius 7, the empty form value is rendered as the 7 x 7 image of radius 3 and
gives the result of `"3"`, and `"-5"` and `"abc"` are rejected with status
400. -/
theorem httpHandler_spec_witness :
    goAtoi "7" = some 7 ∧ goAtoi "+5" = some 5 ∧ goAtoi "3" = some 3 ∧
    goAtoi "-5" = some (-5) ∧ goAtoi "abc" = none ∧
    (∃ (im : Image) (pts : List (Int × Int)),
      httpHandler goAtoi (fun _ => none) (fun _ => true) 8 "7" =
        Outcome.ok (renderCalls (fun _ => none) im) ∧
      drawCircleInt64 8 7 = some pts ∧ im.lo = 0 ∧ im.hi = 2 * 7 + 1 ∧
      ∀ c row : Int, (c, row) ∈ im.white ↔ (c - 7, 7 - row) ∈ pts) ∧
    (∃ (im : Image) (pts : List (Int × Int)),
      httpHandler goAtoi (fun _ => none) (fun _ => true) 8 "" =
        Outcome.ok (renderCalls (fun _ => none) im) ∧
      drawCircleInt64 8 3 = some pts ∧ im.lo = 0 ∧ im.hi = 7 ∧
      ∀ c row : Int, (c, row) ∈ im.white ↔ (c - 3, 3 - row) ∈ pts) ∧
    httpHandler goAtoi (fun _ => none) (fun _ => true) 8 "" =
      httpHandler goAtoi (fun _ => none) (fun _ => true) 8 "3" ∧
    httpHandler goAtoi (fun _ => none) (fun _ => true) 8 "-5" = Outcome.ok badRequestCalls ∧
    httpHandler goAtoi (fun _ => none) (fun _ => true) 8 "abc" = Outcome.ok badRequestCalls :=
  ⟨by decide, by decide, by decide, by decide, by decide,
    (httpHandler_spec goAtoi (fun _ => none) (fun _ => true) 8 "7").2.2.2.1 7
      (by decide) (by decide) (by decide) (by decide) rfl (by decide),
    (httpHandler_spec goAtoi (fun _ => none) (fun _ => true) 8 "").2.2.2.2.1
      rfl rfl (by decide),
    (httpHandler_spec goAtoi (fun _ => none) (fun _ => true) 8 "").2.2.2.2.2.1 (by decide),
    (httpHandler_spec goAtoi (fun _ => none) (fun _ => true) 8 "-5").1.2
      ⟨by decide, Or.inr ⟨-5, by decide, by decide⟩⟩,
    (httpHandler_spec goAtoi (fun _ => none) (fun _ => true) 8 "abc").1.2
      ⟨by decide, Or.inl (by decide)⟩⟩

end Circle
